import Mathlib

/-!
Verification development for the Stonks option-chain service.

The definitions below are a shallow embedding of the TypeScript source:

* symbol codec, chain cache, single-contract lookup, 30-day IV estimator and
  filtered chain query from src/server/services/cboe.ts (and the route-level
  OCC encoder from src/server/routes/holdings.ts);
* the provider-agnostic streaming chat orchestrator from the AI service
  (streamAnthropic and streamGemini);
* the mutation-command extractor from the client chat component.

Modelling conventions: JavaScript numbers are modelled as rationals;
Date.now and the host date parser are explicit parameters (nowMs, toTime);
network fetches and provider calls are explicit function or result
parameters; the JS Map with string keys is an insertion-ordered association
list; JS Array.prototype.sort with a comparator is a stable sort with
respect to the induced boolean order.
-/

namespace Stonks

/-! ## String and number utilities (host-language primitives used by the source) -/

/-- Numeric value of a digit character run, as computed by parseInt on an
all-digit string: fold left, accumulator times 10 plus digit value. -/
def digitsToNat (cs : List Char) : Nat :=
  cs.foldl (fun a c => 10 * a + (c.toNat - 48)) 0

/-- Fuel-bounded decimal rendering helper (most significant digit first). -/
def natDigitsAux : Nat → Nat → List Char
  | 0, _ => []
  | f + 1, n =>
    if n = 0 then []
    else natDigitsAux f (n / 10) ++ [Char.ofNat (48 + n % 10)]

/-- Decimal rendering of a natural number, as JS Number.prototype.toString
produces for a nonnegative integer. -/
def natToDec (n : Nat) : List Char :=
  if n = 0 then ['0'] else natDigitsAux (n + 1) n

/-- JS Math.round: round half toward positive infinity. -/
def jsRound (q : ℚ) : ℤ := ⌊q + 1/2⌋

/-- String.prototype.padStart(len, c). -/
def padStart (len : Nat) (c : Char) (s : List Char) : List Char :=
  List.replicate (len - s.length) c ++ s

/-- Lowercasing as String.prototype.toLowerCase on ASCII data. -/
def jsToLower (s : String) : String := String.mk (s.toList.map Char.toLower)

/-- Uppercasing as String.prototype.toUpperCase on ASCII data. -/
def jsToUpper (s : String) : String := String.mk (s.toList.map Char.toUpper)

/-- Whitespace recognised by String.prototype.trim (ASCII fragment). -/
def jsWs (c : Char) : Bool := c = ' ' ∨ c = '\n' ∨ c = '\t' ∨ c = '\r'

/-- String.prototype.trim. -/
def jsTrim (s : String) : String :=
  String.mk (((s.toList.dropWhile jsWs).reverse.dropWhile jsWs).reverse)

/-- String.prototype.split with separator "-": the list of maximal
dash-free segments. -/
def splitDash : List Char → List (List Char)
  | [] => [[]]
  | c :: rest =>
    if c = '-' then [] :: splitDash rest
    else
      match splitDash rest with
      | [] => [[c]]
      | g :: gs => (c :: g) :: gs

/-- Map.prototype.get on a string-keyed insertion-ordered association
list: the value under the first matching key. -/
def alistGet {b : Type} : List (String × b) → String → Option b
  | [], _ => none
  | kv :: rest, k => if kv.1 = k then some kv.2 else alistGet rest k

/-! ## Data model: raw upstream contracts (interface RawOption) -/

/-- One upstream-reported option instrument, src/server/services/cboe.ts
interface RawOption. All numeric fields are rationals. -/
structure RawOption where
  option : String
  bid : ℚ
  ask : ℚ
  iv : ℚ
  open_interest : ℚ
  volume : ℚ
  delta : ℚ
  last_trade_price : ℚ
  prev_day_close : ℚ
deriving DecidableEq

/-! ## Symbol codec -/

/-- Result of parseOCC: expiry string "20YY-MM-DD", type "call" or "put",
strike scaled down by 1000. The ticker captured by the regex is not part
of the returned record (the destructuring in the source skips it). -/
structure OCCParsed where
  expiry : String
  ptype : String
  strike : ℚ
deriving DecidableEq

/-- The date portion of the decoded expiry: "20YY-MM-DD" built verbatim
from the six captured digits. -/
def mkExpiry (d : List Char) : String :=
  String.mk (['2', '0'] ++ d.take 2 ++ ['-'] ++ ((d.drop 2).take 2) ++ ['-'] ++ d.drop 4)

/-- parseOCC from src/server/services/cboe.ts. The anchored regex
^([A-Z]+)(d6)([CP])(d8)$ matches iff the string has length at least 16,
its first (length - 15) characters are uppercase letters, the next six are
digits, the next is C or P, and the final eight are digits; the split is
forced because the three numeric/kind groups have fixed total width 15. -/
def parseOCC (symbol : String) : Option OCCParsed :=
  let cs := symbol.toList
  let n := cs.length
  if n < 16 then none
  else
    let tk := cs.take (n - 15)
    let rest := cs.drop (n - 15)
    let dateD := rest.take 6
    let kindC := (rest.drop 6).take 1
    let strikeD := rest.drop 7
    if tk.all Char.isUpper && dateD.all Char.isDigit && strikeD.all Char.isDigit then
      match kindC with
      | ['C'] => some ⟨mkExpiry dateD, "call", (digitsToNat strikeD : ℚ) / 1000⟩
      | ['P'] => some ⟨mkExpiry dateD, "put", (digitsToNat strikeD : ℚ) / 1000⟩
      | _ => none
    else none

/-- The shape test performed by the parseOCC regex, spelled out: length at
least 16, uppercase ticker prefix, six date digits, a C or P kind
character, eight strike digits. -/
def occShapeOK (symbol : String) : Bool :=
  let cs := symbol.toList
  let n := cs.length
  decide (16 ≤ n) && (cs.take (n - 15)).all Char.isUpper
    && ((cs.drop (n - 15)).take 6).all Char.isDigit
    && ((cs.drop (n - 9)).take 1 = ['C'] || (cs.drop (n - 9)).take 1 = ['P'])
    && (cs.drop (n - 8)).all Char.isDigit

/-- The OCC key builder from the watch-option route,
src/server/routes/holdings.ts lines 42..47: split the expiration string on
dashes, keep the last two year digits, map the kind to C or P, scale the
strike by 1000, round, render in decimal and left-pad to eight digits. -/
def encodeOCC (ticker ty : String) (strike : ℚ) (expiration : String) : String :=
  let parts := splitDash expiration.toList
  let yyyy := parts.getD 0 []
  let mm := parts.getD 1 []
  let dd := parts.getD 2 []
  let yy := yyyy.drop 2
  let cp : Char := if jsToLower ty = "call" then 'C' else 'P'
  let scaled := jsRound (strike * 1000)
  let scaledDec := if scaled < 0 then '-' :: natToDec scaled.natAbs else natToDec scaled.toNat
  let strikeStr := padStart 8 '0' scaledDec
  String.mk ((jsToUpper ticker).toList ++ yy ++ mm ++ dd ++ [cp] ++ strikeStr)

/-- Two-digit zero-padded decimal rendering, for month and day fields of a
formatted date. -/
def pad2 (n : Nat) : List Char := padStart 2 '0' (natToDec n)

/-- A date in ISO "YYYY-MM-DD" form, as the watch-option route receives it. -/
def fmtDate (y m d : Nat) : String :=
  String.mk (natToDec y ++ ['-'] ++ pad2 m ++ ['-'] ++ pad2 d)

/-! ## Chain cache (fetchChain and the module-level 5-minute cache) -/

/-- One cache entry: fetch timestamp in milliseconds and the fetched list. -/
structure CacheEntry where
  ts : Nat
  options : List RawOption
deriving DecidableEq

/-- The module-level Map from ticker to cache entry, insertion ordered. -/
abbrev Cache := List (String × CacheEntry)

/-- TTL_MS = 5 * 60 * 1000. -/
def TTL_MS : Nat := 5 * 60 * 1000

/-- Map.prototype.set: replace the value under an existing key in place,
else append the binding. -/
def cacheSet (c : Cache) (k : String) (v : CacheEntry) : Cache :=
  if (alistGet c k).isSome then c.map (fun kv => if kv.1 = k then (k, v) else kv)
  else c ++ [(k, v)]

/-- What the upstream CDN produces for one request: a parsed options list
(data.data.options, with the null coalescing to the empty list already
applied) or an HTTP failure status. -/
inductive Upstream
  | ok (options : List RawOption)
  | httpError (status : Nat)
deriving DecidableEq

/-- The non-cached path of fetchChain: on an ok response store the entry
under the ticker and return the list; on a failed response throw, carrying
the HTTP status, and leave the cache untouched. -/
def fetchUpstream (st : Cache) (now : Nat) (ticker : String) :
    Upstream → Except Nat (List RawOption) × Cache
  | .ok options => (.ok options, cacheSet st ticker ⟨now, options⟩)
  | .httpError status => (.error status, st)

/-- fetchChain from src/server/services/cboe.ts: serve the cached list when
the entry is younger than TTL_MS, otherwise fetch upstream. Date.now() is
the explicit argument now; the upstream response for this call is the
explicit argument upstream. -/
def fetchChain (st : Cache) (now : Nat) (ticker : String) (upstream : Upstream) :
    Except Nat (List RawOption) × Cache :=
  match alistGet st ticker with
  | some hit =>
    if now - hit.ts < TTL_MS then (.ok hit.options, st)
    else fetchUpstream st now ticker upstream
  | none => fetchUpstream st now ticker upstream

/-! ## Single-contract lookup (getOptionMid) -/

/-- Result record of getOptionMid. -/
structure OptionMid where
  bid : ℚ
  ask : ℚ
  mid : ℚ
  last : ℚ
  iv : ℚ
deriving DecidableEq

/-- The match predicate inside getOptionMid: the record decodes, its expiry
string equals the requested one, its type equals the lowercased requested
type, and its strike is within absolute tolerance 0.005. -/
def midMatch (norm : String) (strike : ℚ) (expiry : String) (o : RawOption) : Bool :=
  match parseOCC o.option with
  | some p => decide (p.expiry = expiry) && decide (p.ptype = norm)
      && decide (|p.strike - strike| < 5/1000)
  | none => false

/-- getOptionMid from src/server/services/cboe.ts. The awaited fetchChain
outcome is the explicit argument fetched; the catch-all around the body
turns a fetch failure into none. Fields of RawOption are total numbers in
this model, so the null coalescing on bid, ask and last is the identity. -/
def getOptionMid (fetched : Except Nat (List RawOption)) (ty : String)
    (strike : ℚ) (expiry : String) : Option OptionMid :=
  match fetched with
  | .error _ => none
  | .ok options =>
    match options.find? (midMatch (jsToLower ty) strike expiry) with
    | none => none
    | some m => some ⟨m.bid, m.ask, (m.bid + m.ask) / 2, m.last_trade_price, m.iv⟩

/-! ## 30-day IV estimator (calcIV30) -/

/-- One expiry bucket: days to expiry and the call and put contracts
collected for that expiry. -/
structure ExpiryBucket where
  dte : ℚ
  calls : List RawOption
  puts : List RawOption
deriving DecidableEq

/-- Push a contract onto the call or put side of a bucket. -/
def pushOpt (b : ExpiryBucket) (ty : String) (o : RawOption) : ExpiryBucket :=
  if ty = "call" then { b with calls := b.calls ++ [o] }
  else { b with puts := b.puts ++ [o] }

/-- The byExpiry Map building loop of calcIV30: skip undecodable records
and records with non-positive IV; create the bucket on first sight of an
expiry, with dte measured from nowMs; push the record onto its side. -/
def buildBuckets (toTime : String → ℚ) (nowMs : ℚ) (options : List RawOption) :
    List (String × ExpiryBucket) :=
  options.foldl (fun m opt =>
    match parseOCC opt.option with
    | none => m
    | some p =>
      if opt.iv ≤ 0 then m
      else
        let m1 := if (alistGet m p.expiry).isSome then m
          else m ++ [(p.expiry, ⟨(toTime p.expiry - nowMs) / 86400000, [], []⟩)]
        m1.map (fun kv => if kv.1 = p.expiry then (kv.1, pushOpt kv.2 p.ptype opt) else kv)) []

/-- atmOf inside calcIV30: reduce to the decodable positive-IV contract
whose strike is closest to the underlying price. The source dereferences
parseOCC on the current best with a non-null assertion; every stored best
decodes, so the fallback branch keeping the current best is unreachable. -/
def atmOf (underlyingPrice : ℚ) (opts : List RawOption) : Option RawOption :=
  opts.foldl (fun best o =>
    match parseOCC o.option with
    | none => best
    | some p =>
      if o.iv ≤ 0 then best
      else
        match best with
        | none => some o
        | some b =>
          match parseOCC b.option with
          | none => some b
          | some bp =>
            if |p.strike - underlyingPrice| < |bp.strike - underlyingPrice| then some o
            else some b) none

/-- One term-structure point: days to expiry and averaged IV. -/
structure TSPoint where
  dte : ℚ
  iv : ℚ
deriving DecidableEq

/-- The per-bucket step of calcIV30: drop buckets under 5 DTE, average the
available positive at-the-money IVs, drop the bucket when both sides are
missing. -/
def bucketPoint (underlyingPrice : ℚ) (b : ExpiryBucket) : Option TSPoint :=
  if b.dte < 5 then none
  else
    let ivs := ([atmOf underlyingPrice b.calls, atmOf underlyingPrice b.puts].filterMap
        (fun x => x.map RawOption.iv)).filter (fun v => decide (0 < v))
    if ivs = [] then none
    else some ⟨b.dte, ivs.sum / (ivs.length : ℚ)⟩

/-- calcIV30 from src/server/services/cboe.ts: bucket by expiry, build the
term structure, sort ascending by DTE, take a point within 1 day of DTE 30
when one exists, otherwise interpolate between the nearest points below and
above 30, clamping when one side is empty. The source indexes above[0] and
below[below.length - 1] only after establishing nonemptiness; the both-empty
branch cannot be reached when the term structure is nonempty. -/
def calcIV30 (toTime : String → ℚ) (nowMs : ℚ) (options : List RawOption)
    (underlyingPrice : ℚ) : Option ℚ :=
  let termStructure := ((buildBuckets toTime nowMs options).map Prod.snd).filterMap
    (bucketPoint underlyingPrice)
  if termStructure = [] then none
  else
    let ts := List.insertionSort (fun a b : TSPoint => a.dte ≤ b.dte) termStructure
    match ts.find? (fun t => decide (|t.dte - 30| < 1)) with
    | some t => some t.iv
    | none =>
      let below := ts.filter (fun t => decide (t.dte < 30))
      let above := ts.filter (fun t => decide (30 < t.dte))
      match below.getLast?, above.head? with
      | some t1, some t2 => some (t1.iv + ((30 - t1.dte) / (t2.dte - t1.dte)) * (t2.iv - t1.iv))
      | none, some t2 => some t2.iv
      | some t1, none => some t1.iv
      | none, none => none

/-! ## Filtered chain query (getFilteredChain) -/

/-- The optional filter record; absent fields take the documented defaults
inside getFilteredChain. -/
structure ChainFilter where
  type : Option String := none
  dteMin : Option ℚ := none
  dteMax : Option ℚ := none
  otmOnly : Option Bool := none
  maxResults : Option Nat := none
  underlyingPrice : Option ℚ := none

/-- Output projection of getFilteredChain. -/
structure FilteredContract where
  type : String
  strike : ℚ
  expiry : String
  dte : ℤ
  bid : ℚ
  ask : ℚ
  mid : ℚ
  iv : ℚ
  delta : ℚ
  volume : ℚ
  openInterest : ℚ
deriving DecidableEq

/-- The OTM gate of the loop body: applied only when the flag is set and an
underlying price was supplied; a call passes when its strike is above the
underlying, a put when below. -/
def otmPass (parsed : OCCParsed) (otmOnly : Bool) (up : Option ℚ) : Bool :=
  match up with
  | some u =>
    !otmOnly || (if parsed.ptype = "call" then decide (u < parsed.strike)
      else decide (parsed.strike < u))
  | none => true

/-- One iteration of the getFilteredChain loop: decode, type filter, DTE
window, OTM gate, and the non-zero-mid requirement, producing the
projection on survival. -/
def filterStep (toTime : String → ℚ) (now : ℚ) (ty : String) (dteMin dteMax : ℚ)
    (otmOnly : Bool) (up : Option ℚ) (opt : RawOption) : Option FilteredContract :=
  match parseOCC opt.option with
  | none => none
  | some parsed =>
    if ty = "calls" ∧ parsed.ptype ≠ "call" then none
    else if ty = "puts" ∧ parsed.ptype ≠ "put" then none
    else
      let dte := (toTime parsed.expiry / 1000 - now) / 86400
      if dte < dteMin ∨ dteMax < dte then none
      else if otmPass parsed otmOnly up = false then none
      else
        let mid := (opt.bid + opt.ask) / 2
        if mid ≤ 0 then none
        else some ⟨parsed.ptype, parsed.strike, parsed.expiry, jsRound dte, opt.bid,
          opt.ask, mid, opt.iv, opt.delta, opt.volume, opt.open_interest⟩

/-- The order induced by the sort comparator of getFilteredChain: ascending
DTE first, ties broken by distance of strike from the underlying price when
known, else by strike. -/
def chainLe (up : Option ℚ) (a b : FilteredContract) : Prop :=
  if a.dte = b.dte then
    match up with
    | some u => |a.strike - u| ≤ |b.strike - u|
    | none => a.strike ≤ b.strike
  else a.dte ≤ b.dte

instance (up : Option ℚ) : DecidableRel (chainLe up) := by
  intro a b
  unfold chainLe
  split
  · cases up <;> dsimp only <;> infer_instance
  · infer_instance

/-- getFilteredChain from src/server/services/cboe.ts. The fetched chain is
the explicit argument options; Date.now() is nowMs and the host date parser
is toTime, so now = nowMs / 1000 and each expiry timestamp in seconds is
toTime of the expiry over 1000. The final list is sorted by the comparator
and truncated to min(maxResults, 50). -/
def getFilteredChain (toTime : String → ℚ) (nowMs : ℚ) (options : List RawOption)
    (filter : ChainFilter) : List FilteredContract :=
  let ty := filter.type.getD "both"
  let dteMin := filter.dteMin.getD 20
  let dteMax := filter.dteMax.getD 90
  let otmOnly := filter.otmOnly.getD true
  let maxResults := filter.maxResults.getD 25
  let now := nowMs / 1000
  let results := options.filterMap
    (filterStep toTime now ty dteMin dteMax otmOnly filter.underlyingPrice)
  (List.insertionSort (chainLe filter.underlyingPrice) results).take (min maxResults 50)

/-! ## Conversation orchestrator (streamChat / streamAnthropic / streamGemini)

The SSE writes performed on the HTTP response object are collected into an
event list; the provider SDK calls are explicit function arguments. -/

/-- One server-sent event: a tool-call announcement (name and JSON input,
the input kept opaque as a string), an incremental text chunk, or the
terminal data marker written before res.end(). -/
inductive SSEEvent
  | toolCall (name input : String)
  | text (s : String)
  | done
deriving DecidableEq

/-- A caller-supplied chat message (interface ChatMessage). -/
structure ChatMsg where
  role : String
  content : String
deriving DecidableEq

/-- A content block of an Anthropic response: prose or a tool-use request. -/
inductive ABlock
  | text (s : String)
  | toolUse (id name input : String)
deriving DecidableEq

/-- The stop reason of a non-streaming Anthropic response; the loop only
distinguishes tool_use from everything else. -/
inductive AStop
  | toolUse
  | endTurn
deriving DecidableEq

/-- A non-streaming Anthropic response. -/
structure AResponse where
  stop_reason : AStop
  content : List ABlock
deriving DecidableEq

/-- The content of one entry of the working anthropicMessages list: plain
text from the caller transcript, the assistant invocation record, or the
tool_result blocks (tool_use_id paired with the textual result). -/
inductive AContent
  | text (s : String)
  | blocks (bs : List ABlock)
  | toolResults (rs : List (String × String))
deriving DecidableEq

/-- One entry of the working anthropicMessages list. -/
structure AMsg where
  role : String
  content : AContent
deriving DecidableEq

/-- A chunk of the final Anthropic stream; only content_block_delta chunks
with a text_delta are forwarded. -/
inductive AChunk
  | textDelta (s : String)
  | other
deriving DecidableEq

/-- The tool_use blocks of a response content list, in order. -/
def toolUseBlocks (bs : List ABlock) : List (String × String × String) :=
  bs.filterMap (fun b => match b with
    | .toolUse id name input => some (id, name, input)
    | .text _ => none)

/-- The tool-call rounds of streamAnthropic: at most the given fuel many
non-streaming requests; stop when the response does not signal tool use;
otherwise announce every requested invocation, execute it, and extend the
working message list with the invocation record and the tool results.
Returns the emitted events and the accumulated message list. -/
def anthropicRounds (provider : List AMsg → AResponse) (exec : String → String → String) :
    Nat → List AMsg → List SSEEvent × List AMsg
  | 0, msgs => ([], msgs)
  | n + 1, msgs =>
    let resp := provider msgs
    if resp.stop_reason = AStop.toolUse then
      let blocks := toolUseBlocks resp.content
      let evs := blocks.map (fun b => SSEEvent.toolCall b.2.1 b.2.2)
      let results := blocks.map (fun b => (b.1, exec b.2.1 b.2.2))
      let next := anthropicRounds provider exec n
        (msgs ++ [⟨"assistant", .blocks resp.content⟩, ⟨"user", .toolResults results⟩])
      (evs ++ next.1, next.2)
    else ([], msgs)

/-- The initial working message list: the caller transcript as plain text. -/
def initAMsgs (messages : List ChatMsg) : List AMsg :=
  messages.map (fun m => ⟨m.role, .text m.content⟩)

/-- The text events of the final Anthropic stream. -/
def finalTextEvents (chunks : List AChunk) : List SSEEvent :=
  chunks.filterMap (fun c => match c with
    | .textDelta s => some (SSEEvent.text s)
    | .other => none)

/-- streamAnthropic: with a tool executor run up to 5 tool rounds, then one
final streaming request (with the tool schema attached) over the
accumulated message list; without an executor the loop body never runs and
the final streaming request (without tools) is made directly; forward the
text deltas and finish with the terminal marker. The streaming SDK call is
the argument streamP, whose boolean records whether tools were attached. -/
def streamAnthropic (provider : List AMsg → AResponse)
    (streamP : Bool → List AMsg → List AChunk)
    (toolExecutor : Option (String → String → String))
    (messages : List ChatMsg) : List SSEEvent :=
  match toolExecutor with
  | none => finalTextEvents (streamP false (initAMsgs messages)) ++ [SSEEvent.done]
  | some exec =>
    let rounds := anthropicRounds provider exec 5 (initAMsgs messages)
    rounds.1 ++ finalTextEvents (streamP true rounds.2) ++ [SSEEvent.done]

/-- One item sent into the Gemini chat: the final user message text, or the
function-response batch of a tool round (name paired with result). -/
inductive GSendable
  | text (s : String)
  | funcResponses (rs : List (String × String))
deriving DecidableEq

/-- A non-streaming Gemini response: the requested function calls (name and
args, args kept opaque as a string) and the response text. -/
structure GResponse where
  functionCalls : List (String × String)
  text : String
deriving DecidableEq

/-- The tool loop of streamGemini: at most the given fuel many sends. When
the response requests no function call, emit its complete text as a single
event and stop; otherwise announce and execute every call and send the
function responses as the next message. Exhausting the fuel emits nothing
further. The send function receives every item sent so far on this chat. -/
def geminiRounds (send : List GSendable → GResponse) (exec : String → String → String) :
    Nat → List GSendable → List SSEEvent
  | 0, _ => []
  | n + 1, sent =>
    let resp := send sent
    if resp.functionCalls = [] then [SSEEvent.text resp.text]
    else
      let evs := resp.functionCalls.map (fun c => SSEEvent.toolCall c.1 c.2)
      let rs := resp.functionCalls.map (fun c => (c.1, exec c.1 c.2))
      evs ++ geminiRounds send exec n (sent ++ [GSendable.funcResponses rs])

/-- The last transcript message, whose content seeds the Gemini chat. -/
def lastContent (messages : List ChatMsg) : String :=
  (messages.getLast?).elim "" ChatMsg.content

/-- streamGemini: without a tool executor, stream the last message and
forward every non-empty chunk text; with an executor run the tool loop
(which never streams); finish with the terminal marker. The streaming SDK
call is the argument sendStream; the earlier transcript entries form the
chat history and are part of the provider closures. -/
def streamGemini (send : List GSendable → GResponse) (sendStream : String → List String)
    (toolExecutor : Option (String → String → String))
    (messages : List ChatMsg) : List SSEEvent :=
  match toolExecutor with
  | none =>
    ((sendStream (lastContent messages)).filter (fun t => decide (t ≠ ""))).map SSEEvent.text
      ++ [SSEEvent.done]
  | some exec =>
    geminiRounds send exec 5 [GSendable.text (lastContent messages)] ++ [SSEEvent.done]

/-- Event classifier: tool-invocation announcements. -/
def isToolCall : SSEEvent → Bool
  | .toolCall _ _ => true
  | _ => false

/-- Event classifier: incremental text chunks. -/
def isTextEv : SSEEvent → Bool
  | .text _ => true
  | _ => false

/-- Event classifier: the terminal data marker. -/
def isDone : SSEEvent → Bool
  | .done => true
  | _ => false

/-! ## Test fixtures: concrete providers for orchestrator scenarios -/

/-- An Anthropic provider that requests exactly one tool use on every
round, regardless of the conversation. -/
def aAlwaysTool : List AMsg → AResponse :=
  fun _ => ⟨AStop.toolUse, [ABlock.toolUse "id1" "get_option_chain" "args"]⟩

/-- A final-stream stub producing one text chunk. -/
def aStreamHello : Bool → List AMsg → List AChunk :=
  fun _ _ => [AChunk.textDelta "hello"]

/-- A tool executor stub. -/
def execStub : String → String → String := fun _ _ => "result"

/-- A Gemini provider that requests exactly one function call on every
send, regardless of the transcript. -/
def gAlwaysTool : List GSendable → GResponse :=
  fun _ => ⟨[("get_option_chain", "args")], "unused"⟩

/-- A Gemini streaming stub producing one text chunk. -/
def gStreamHello : String → List String := fun _ => ["hello"]

/-- A one-message transcript. -/
def msgs0 : List ChatMsg := [⟨"user", "hi"⟩]

/-! ## Mutation protocol parser (extractFileUpdate) -/

/-- The target of a mutation command (FileUpdate.file in the client types). -/
inductive FileTarget
  | holdings
  | strategy
deriving DecidableEq

/-- A parsed mutation command. The new content is kept opaque as a string;
the source casts the parsed JSON without inspecting it. -/
structure FileUpdate where
  file : FileTarget
  content : String
deriving DecidableEq

/-- The opening delimiter of the mutation block. -/
def openDelim : List Char := "<<<FILE_UPDATE>>>".toList

/-- The closing delimiter of the mutation block. -/
def endDelim : List Char := "<<<END_FILE_UPDATE>>>".toList

/-- Index of the first occurrence of the pattern, scanning left to right. -/
def findSubAux (pat : List Char) : List Char → Nat → Option Nat
  | [], i => if pat = [] then some i else none
  | c :: rest, i =>
    if pat.isPrefixOf (c :: rest) then some i else findSubAux pat rest (i + 1)

/-- Index of the first occurrence of the pattern in the text. -/
def findSub (pat cs : List Char) : Option Nat := findSubAux pat cs 0

/-- The match of the regex OPEN([\s\S]*?)END: the prefix before the first
opening delimiter, the lazily matched inner payload (up to the first
closing delimiter after it), and the suffix after the match. The regex
fails exactly when no closing delimiter follows an opening one; since any
closing delimiter after a later opening delimiter also follows the first,
searching from the first opening delimiter is the leftmost match. -/
def fileUpdateMatch (cs : List Char) : Option (List Char × List Char × List Char) :=
  match findSub openDelim cs with
  | none => none
  | some i =>
    let rest := cs.drop (i + openDelim.length)
    match findSub endDelim rest with
    | none => none
    | some j => some (cs.take i, rest.take j, rest.drop (j + endDelim.length))

/-- extractFileUpdate from the client chat component: no match returns the
text unchanged with no update; on a match, parse the trimmed payload as
JSON (the host JSON.parse is the argument parseJson) — on success return
the text with the matched block removed and trimmed together with the
update, and on a parse failure return the original text unchanged with no
update. -/
def extractFileUpdate (parseJson : String → Option FileUpdate) (text : String) :
    String × Option FileUpdate :=
  match fileUpdateMatch text.toList with
  | none => (text, none)
  | some (pre, inner, post) =>
    match parseJson (jsTrim (String.mk inner)) with
    | none => (text, none)
    | some u => (jsTrim (String.mk (pre ++ post)), some u)

/-! ## Test fixtures: a concrete JSON parser stub for the mutation parser -/

/-- A concrete stand-in for the host JSON.parse in mutation-parser test
scenarios: the payload J parses to a holdings update, all else fails. -/
def pj0 : String → Option FileUpdate :=
  fun s => if s = "J" then some ⟨FileTarget.holdings, "new"⟩ else none

/-! ## Test fixtures: synthetic chains for the volatility estimator -/

/-- Test clock: timestamps in milliseconds for the four synthetic expiries,
measured from a zero current time, giving DTE 20, 40, 10 and 29.5. -/
def tt0 : String → ℚ := fun e =>
  if e = "2026-01-21" then 20 * 86400000
  else if e = "2026-02-10" then 40 * 86400000
  else if e = "2026-01-11" then 10 * 86400000
  else if e = "2026-01-30" then 59 / 2 * 86400000
  else 0

/-- A raw contract with the given symbol and IV; other fields zero. -/
def rawIV (sym : String) (iv : ℚ) : RawOption := ⟨sym, 0, 0, iv, 0, 0, 0, 0, 0⟩

/-! ## Helper lemmas: decimal rendering -/

theorem natDigitsAux_congr (n : Nat) : ∀ f g, n ≤ f → n ≤ g →
    natDigitsAux f n = natDigitsAux g n := by
  induction n using Nat.strong_induction_on with
  | _ n ih =>
    intro f g hf hg
    by_cases h0 : n = 0
    · subst h0
      cases f <;> cases g <;> simp [natDigitsAux]
    · obtain ⟨f, rfl⟩ : ∃ k, f = k + 1 := ⟨f - 1, by omega⟩
      obtain ⟨g, rfl⟩ : ∃ k, g = k + 1 := ⟨g - 1, by omega⟩
      rw [natDigitsAux, natDigitsAux]
      simp only [h0, if_false]
      have hdiv : n / 10 < n := Nat.div_lt_self (by omega) (by omega)
      rw [ih _ hdiv f g (by omega) (by omega)]

theorem natDigitsAux_all_digit (f n : Nat) : (natDigitsAux f n).all Char.isDigit = true := by
  induction f generalizing n with
  | zero => rfl
  | succ f ih =>
    rw [natDigitsAux]
    by_cases h : n = 0
    · simp [h]
    · have hr : n % 10 < 10 := Nat.mod_lt _ (by omega)
      simp only [h, if_false, List.all_append, ih, Bool.true_and]
      interval_cases h : n % 10 <;> decide

theorem natToDec_all_digit (n : Nat) : (natToDec n).all Char.isDigit = true := by
  unfold natToDec
  by_cases h : n = 0
  · simp [h]
  · simp [h, natDigitsAux_all_digit]

theorem digitsToNat_append (L M : List Char) :
    digitsToNat (L ++ M) = M.foldl (fun a c => 10 * a + (c.toNat - 48)) (digitsToNat L) := by
  unfold digitsToNat
  rw [List.foldl_append]

theorem digitsToNat_natDigitsAux (n : Nat) : ∀ f, n ≤ f → digitsToNat (natDigitsAux f n) = n := by
  induction n using Nat.strong_induction_on with
  | _ n ih =>
    intro f hf
    by_cases h0 : n = 0
    · subst h0
      cases f <;> simp [natDigitsAux, digitsToNat]
    · obtain ⟨f, rfl⟩ : ∃ k, f = k + 1 := ⟨f - 1, by omega⟩
      rw [natDigitsAux]
      simp only [h0, if_false]
      have hdiv : n / 10 < n := Nat.div_lt_self (by omega) (by omega)
      rw [digitsToNat_append]
      simp only [List.foldl_cons, List.foldl_nil]
      rw [ih _ hdiv f (by omega)]
      have hr : n % 10 < 10 := Nat.mod_lt _ (by omega)
      have hc : (Char.ofNat (48 + n % 10)).toNat = 48 + n % 10 := by
        interval_cases h : n % 10 <;> decide
      rw [hc]
      omega

theorem digitsToNat_natToDec (n : Nat) : digitsToNat (natToDec n) = n := by
  unfold natToDec
  by_cases h : n = 0
  · simp [h]; rfl
  · simp only [h, if_false]
    exact digitsToNat_natDigitsAux n (n + 1) (by omega)

theorem natDigitsAux_length_le (k : Nat) : ∀ n f, n ≤ f → n < 10 ^ k →
    (natDigitsAux f n).length ≤ k := by
  induction k with
  | zero =>
    intro n f hf hk
    interval_cases n
    cases f <;> simp [natDigitsAux]
  | succ k ih =>
    intro n f hf hk
    by_cases h : n = 0
    · subst h; cases f <;> simp [natDigitsAux]
    · obtain ⟨f, rfl⟩ : ∃ j, f = j + 1 := ⟨f - 1, by omega⟩
      rw [natDigitsAux]
      simp only [h, if_false, List.length_append, List.length_cons, List.length_nil]
      have hdiv : n / 10 < 10 ^ k := by
        rw [Nat.div_lt_iff_lt_mul (by omega)]
        calc n < 10 ^ (k + 1) := hk
        _ = 10 ^ k * 10 := by ring
      have hle : n / 10 ≤ f := by
        have : n / 10 < n := Nat.div_lt_self (by omega) (by omega)
        omega
      have := ih (n / 10) f hle hdiv
      omega

theorem natToDec_length_le (n k : Nat) (h : n < 10 ^ k) (hk : 1 ≤ k) :
    (natToDec n).length ≤ k := by
  unfold natToDec
  by_cases h0 : n = 0
  · simp [h0]; omega
  · simp only [h0, if_false]
    exact natDigitsAux_length_le k n (n + 1) (by omega) h

/-! ## Helper lemmas: padding -/

theorem padStart_length (len : Nat) (c : Char) (s : List Char) (h : s.length ≤ len) :
    (padStart len c s).length = len := by
  simp only [padStart, List.length_append, List.length_replicate]
  omega

theorem padStart_all (len : Nat) (c : Char) (s : List Char) (p : Char → Bool)
    (hc : p c = true) (hs : s.all p = true) : (padStart len c s).all p = true := by
  simp only [padStart, List.all_append, hs, Bool.and_true]
  rw [List.all_eq_true]
  intro x hx
  rw [List.eq_of_mem_replicate hx]
  exact hc

theorem digitsToNat_replicate_zero (m : Nat) (s : List Char) :
    digitsToNat (List.replicate m '0' ++ s) = digitsToNat s := by
  induction m with
  | zero => rfl
  | succ m ih =>
    rw [List.replicate_succ, List.cons_append]
    have h0 : digitsToNat ('0' :: (List.replicate m '0' ++ s)) =
        digitsToNat (List.replicate m '0' ++ s) := by
      unfold digitsToNat
      simp only [List.foldl_cons]
      have hz : 10 * 0 + (('0' : Char).toNat - 48) = 0 := by decide
      rw [hz]
    rw [h0, ih]

theorem digitsToNat_padStart_zero (len : Nat) (s : List Char) :
    digitsToNat (padStart len '0' s) = digitsToNat s :=
  digitsToNat_replicate_zero _ s

theorem pad2_length (n : Nat) (h : n ≤ 99) : (pad2 n).length = 2 :=
  padStart_length 2 '0' _ (natToDec_length_le n 2 (by omega) (by omega))

theorem pad2_all_digit (n : Nat) : (pad2 n).all Char.isDigit = true :=
  padStart_all 2 '0' _ _ (by decide) (natToDec_all_digit n)

/-! ## Helper lemmas: splitDash -/

theorem splitDash_dashfree (a : List Char) (h : ∀ c ∈ a, c ≠ '-') : splitDash a = [a] := by
  induction a with
  | nil => rfl
  | cons c rest ih =>
    have hc : c ≠ '-' := h c (List.mem_cons_self c rest)
    rw [splitDash]
    simp only [hc, if_false]
    rw [ih (fun x hx => h x (List.mem_cons_of_mem c hx))]

theorem splitDash_append (a t : List Char) (h : ∀ c ∈ a, c ≠ '-') :
    splitDash (a ++ '-' :: t) = a :: splitDash t := by
  induction a with
  | nil => simp [splitDash]
  | cons c rest ih =>
    have hc : c ≠ '-' := h c (List.mem_cons_self c rest)
    rw [List.cons_append, splitDash]
    simp only [hc, if_false]
    rw [ih (fun x hx => h x (List.mem_cons_of_mem c hx))]

theorem digit_ne_dash (c : Char) (h : c.isDigit = true) : c ≠ '-' := by
  intro he
  subst he
  simp [Char.isDigit] at h

theorem all_digit_no_dash (l : List Char) (h : l.all Char.isDigit = true) :
    ∀ c ∈ l, c ≠ '-' := by
  intro c hc
  exact digit_ne_dash c (by simpa using (List.all_eq_true.mp h c hc))

/-! ## Helper lemmas: case mapping -/

theorem toUpper_of_isUpper (c : Char) (h : c.isUpper = true) : c.toUpper = c := by
  simp only [Char.isUpper, Bool.and_eq_true, decide_eq_true_eq] at h
  obtain ⟨h1, h2⟩ := h
  have h2' : c.val.toNat ≤ 90 := h2
  simp only [Char.toUpper, Char.toNat]
  rw [if_neg]
  rintro ⟨h3, h4⟩
  have h3' : c.val.toNat ≥ 97 := h3
  omega

theorem map_toUpper_of_upper (l : List Char) (h : ∀ c ∈ l, c.isUpper = true) :
    l.map Char.toUpper = l := by
  induction l with
  | nil => rfl
  | cons c rest ih =>
    rw [List.map_cons, toUpper_of_isUpper c (h c (List.mem_cons_self c rest)),
      ih (fun x hx => h x (List.mem_cons_of_mem c hx))]

theorem jsToUpper_of_upper (s : String) (h : ∀ c ∈ s.toList, c.isUpper = true) :
    (jsToUpper s).toList = s.toList := by
  show (s.toList.map Char.toUpper) = s.toList
  exact map_toUpper_of_upper s.toList h

/-! ## Helper lemmas: decoding a well-shaped concatenation -/

theorem parseOCC_concat (tk d6 : List Char) (cp : Char) (d8 : List Char)
    (htk : tk ≠ []) (htkU : tk.all Char.isUpper = true) (h6 : d6.length = 6)
    (h6d : d6.all Char.isDigit = true) (hcp : cp = 'C' ∨ cp = 'P')
    (h8 : d8.length = 8) (h8d : d8.all Char.isDigit = true) :
    parseOCC (String.mk (tk ++ d6 ++ cp :: d8)) =
      some ⟨mkExpiry d6, if cp = 'C' then "call" else "put",
        (digitsToNat d8 : ℚ) / 1000⟩ := by
  have hlist : (String.mk (tk ++ d6 ++ cp :: d8)).toList = tk ++ (d6 ++ cp :: d8) := by
    simp [String.toList]
  have hn : (tk ++ (d6 ++ cp :: d8)).length = tk.length + 15 := by
    simp [h6, h8]
  have htklen : tk.length ≠ 0 := by simpa using htk
  simp only [parseOCC, hlist, hn]
  have h15 : tk.length + 15 - 15 = tk.length := by omega
  rw [h15, if_neg (by omega)]
  rw [List.take_left, List.drop_left]
  have htake6 : (d6 ++ cp :: d8).take 6 = d6 := by
    rw [← h6]; exact List.take_left d6 _
  have hdrop6 : (d6 ++ cp :: d8).drop 6 = cp :: d8 := by
    rw [← h6]; exact List.drop_left d6 _
  have hdrop7 : (d6 ++ cp :: d8).drop 7 = d8 := by
    have : (7 : Nat) = 6 + 1 := rfl
    rw [this, ← List.drop_drop, hdrop6]
    rfl
  rw [htake6, hdrop6, hdrop7, htkU, h6d, h8d]
  simp only [Bool.true_and, Bool.and_self, if_true]
  rcases hcp with rfl | rfl
  · simp
  · simp

/-! ## Helper lemmas: the encoder output shape -/

theorem year_drop2 : ∀ r, r < 100 → natToDec (2000 + r) = '2' :: '0' :: pad2 r := by decide

theorem jsToLower_call : jsToLower "call" = "call" := by decide

theorem jsToLower_put : jsToLower "put" = "put" := by decide

theorem jsRound_scaled (s : Nat) : jsRound ((s : ℚ) / 1000 * 1000) = (s : ℤ) := by
  have h : ((s : ℚ) / 1000 * 1000) = (s : ℚ) := by
    field_simp
  rw [jsRound, h]
  rw [Int.floor_eq_iff]
  constructor
  · push_cast; linarith
  · push_cast; linarith

/-- The encoder applied to an uppercase ticker, a call or put kind, a
strike that is s/1000, and a formatted date with year 2000 + r, written as
the explicit character-level concatenation. -/
theorem encodeOCC_shape (tk ty : String) (s r m d : Nat)
    (htkU : ∀ c ∈ tk.toList, c.isUpper = true)
    (hr : r < 100) :
    encodeOCC tk ty ((s : ℚ) / 1000) (fmtDate (2000 + r) m d) =
      String.mk (tk.toList ++ (pad2 r ++ (pad2 m ++ pad2 d)) ++
        (if jsToLower ty = "call" then 'C' else 'P') :: padStart 8 '0' (natToDec s)) := by
  have hdate : (fmtDate (2000 + r) m d).toList =
      natToDec (2000 + r) ++ '-' :: (pad2 m ++ '-' :: pad2 d) := by
    simp [fmtDate, String.toList]
  have hsplit : splitDash (fmtDate (2000 + r) m d).toList =
      [natToDec (2000 + r), pad2 m, pad2 d] := by
    rw [hdate]
    rw [splitDash_append _ _ (all_digit_no_dash _ (natToDec_all_digit _))]
    rw [splitDash_append _ _ (all_digit_no_dash _ (pad2_all_digit m))]
    rw [splitDash_dashfree _ (all_digit_no_dash _ (pad2_all_digit d))]
  simp only [encodeOCC, hsplit, List.getD_cons_zero, List.getD_cons_succ]
  have hyy : (natToDec (2000 + r)).drop 2 = pad2 r := by
    rw [year_drop2 r hr]
    rfl
  have hround : jsRound ((s : ℚ) / 1000 * 1000) = (s : ℤ) := jsRound_scaled s
  rw [hyy, hround]
  have hneg : ¬ ((s : ℤ) < 0) := by omega
  rw [if_neg hneg, Int.toNat_natCast]
  have hup : (jsToUpper tk).toList = tk.toList := jsToUpper_of_upper tk htkU
  rw [hup]
  simp [List.append_assoc]

/-- The strike digit field of the encoder decodes back to s. -/
theorem digitsToNat_strike (s : Nat) :
    digitsToNat (padStart 8 '0' (natToDec s)) = s := by
  rw [digitsToNat_padStart_zero, digitsToNat_natToDec]

theorem strikeField_length (s : Nat) (h : s < 10 ^ 8) :
    (padStart 8 '0' (natToDec s)).length = 8 :=
  padStart_length 8 '0' _ (natToDec_length_le s 8 h (by omega))

theorem strikeField_digits (s : Nat) :
    (padStart 8 '0' (natToDec s)).all Char.isDigit = true :=
  padStart_all 8 '0' _ _ (by decide) (natToDec_all_digit s)

/-- mkExpiry of the date field equals the formatted date. -/
theorem mkExpiry_fmtDate (r m d : Nat) (hr : r < 100) (hm : m ≤ 99) (hd : d ≤ 99) :
    mkExpiry (pad2 r ++ (pad2 m ++ pad2 d)) = fmtDate (2000 + r) m d := by
  have h2r := pad2_length r (by omega)
  have h2m := pad2_length m hm
  have h2d := pad2_length d hd
  simp only [mkExpiry, fmtDate]
  rw [year_drop2 r hr]
  have htake : (pad2 r ++ (pad2 m ++ pad2 d)).take 2 = pad2 r := by
    rw [← h2r]; exact List.take_left _ _
  have hdrop : (pad2 r ++ (pad2 m ++ pad2 d)).drop 2 = pad2 m ++ pad2 d := by
    rw [← h2r]; exact List.drop_left _ _
  have htake2 : (pad2 m ++ pad2 d).take 2 = pad2 m := by
    rw [← h2m]; exact List.take_left _ _
  have hdrop4 : (pad2 r ++ (pad2 m ++ pad2 d)).drop 4 = pad2 d := by
    have h4 : (4 : Nat) = 2 + 2 := rfl
    rw [h4, ← List.drop_drop, hdrop, ← h2m, List.drop_left]
  rw [htake, hdrop, htake2, hdrop4]
  simp

/-- The full encode-then-decode computation: the kind and the exact
strike s/1000 and the exact formatted expiry date come back. The ticker is
validated but not part of the decoded record. -/
theorem parse_encode_aux (tk ty : String) (s y m d : Nat)
    (htk : tk.toList ≠ []) (htkU : ∀ c ∈ tk.toList, c.isUpper = true)
    (hty : ty = "call" ∨ ty = "put") (hs : s < 10 ^ 8)
    (hy1 : 2000 ≤ y) (hy2 : y ≤ 2099) (hm : m ≤ 99) (hd : d ≤ 99) :
    parseOCC (encodeOCC tk ty ((s : ℚ) / 1000) (fmtDate y m d)) =
      some ⟨fmtDate y m d, ty, (s : ℚ) / 1000⟩ := by
  obtain ⟨r, rfl⟩ : ∃ r, y = 2000 + r := ⟨y - 2000, by omega⟩
  have hr : r < 100 := by omega
  rw [encodeOCC_shape tk ty s r m d htkU hr]
  have hd6len : (pad2 r ++ (pad2 m ++ pad2 d)).length = 6 := by
    simp [pad2_length r (by omega), pad2_length m hm, pad2_length d hd]
  have hd6dig : (pad2 r ++ (pad2 m ++ pad2 d)).all Char.isDigit = true := by
    simp [List.all_append, pad2_all_digit]
  have hcp : (if jsToLower ty = "call" then 'C' else 'P') = 'C' ∨
      (if jsToLower ty = "call" then 'C' else 'P') = 'P' := by
    rcases hty with rfl | rfl
    · left; simp [jsToLower_call]
    · right; simp [jsToLower_put]
  rw [parseOCC_concat tk.toList _ _ _ htk (by
      rw [List.all_eq_true]; intro c hc; exact htkU c hc)
    hd6len hd6dig hcp (strikeField_length s hs) (strikeField_digits s)]
  rw [mkExpiry_fmtDate r m d hr hm hd]
  rw [digitsToNat_strike s]
  rcases hty with rfl | rfl
  · simp [jsToLower_call]
  · simp [jsToLower_put]

/-! ## Helper lemmas: decode failure is exactly a shape failure -/

theorem take_one_cases (l : List Char) : l.take 1 = [] ∨ ∃ c, l.take 1 = [c] := by
  cases l with
  | nil => left; rfl
  | cons c rest => right; exact ⟨c, by simp⟩

theorem parseOCC_none_iff (s : String) : parseOCC s = none ↔ occShapeOK s = false := by
  unfold parseOCC occShapeOK
  generalize s.toList = cs
  dsimp only
  by_cases h16 : cs.length < 16
  · have hd16 : decide (16 ≤ cs.length) = false := by
      simp only [decide_eq_false_iff_not]
      omega
    rw [if_pos h16, hd16]
    simp
  · have hd16 : decide (16 ≤ cs.length) = true := by
      simp only [decide_eq_true_eq]
      omega
    rw [if_neg h16, hd16]
    have e1 : ((cs.drop (cs.length - 15)).drop 6).take 1 =
        (cs.drop (cs.length - 9)).take 1 := by
      rw [List.drop_drop]
      congr 2
      omega
    have e2 : (cs.drop (cs.length - 15)).drop 7 = cs.drop (cs.length - 8) := by
      rw [List.drop_drop]
      congr 1
      omega
    rw [e1, e2]
    simp only [Bool.true_and]
    by_cases hU : (cs.take (cs.length - 15)).all Char.isUpper = true
    · by_cases hD : ((cs.drop (cs.length - 15)).take 6).all Char.isDigit = true
      · by_cases hS : (cs.drop (cs.length - 8)).all Char.isDigit = true
        · rw [hU, hD, hS]
          simp only [Bool.true_and, Bool.and_true, if_true]
          rcases take_one_cases (cs.drop (cs.length - 9)) with hk | ⟨c, hk⟩
          · rw [hk]
            simp
          · rw [hk]
            by_cases hC : c = 'C'
            · subst hC
              simp
            · by_cases hP : c = 'P'
              · subst hP
                simp
              · have hc1 : ¬ ([c] = ['C']) := by simpa using hC
                have hc2 : ¬ ([c] = ['P']) := by simpa using hP
                constructor
                · intro _
                  simp [hc1, hc2]
                · intro _
                  split
                  · rename_i heq
                    exact absurd heq hc1
                  · rename_i heq
                    exact absurd heq hc2
                  · rfl
        · have hS' : (cs.drop (cs.length - 8)).all Char.isDigit = false :=
            Bool.eq_false_iff.mpr hS
          rw [hU, hD, hS']
          simp
      · have hD' : ((cs.drop (cs.length - 15)).take 6).all Char.isDigit = false :=
          Bool.eq_false_iff.mpr hD
        rw [hU, hD']
        simp
    · have hU' : (cs.take (cs.length - 15)).all Char.isUpper = false :=
        Bool.eq_false_iff.mpr hU
      rw [hU']
      simp

/-! ## Helper lemmas: cache lookups -/

theorem alistGet_map_replace (c : Cache) (k : String) (v : CacheEntry)
    (h : (alistGet c k).isSome) :
    alistGet (c.map (fun kv => if kv.1 = k then (k, v) else kv)) k = some v := by
  induction c with
  | nil => simp [alistGet] at h
  | cons kv rest ih =>
    by_cases hk : kv.1 = k
    · rw [List.map_cons, if_pos hk, alistGet]
      rw [if_pos rfl]
    · rw [List.map_cons, if_neg hk, alistGet, if_neg hk]
      rw [alistGet, if_neg hk] at h
      exact ih h

theorem alistGet_append_single (c : Cache) (k : String) (v : CacheEntry)
    (h : alistGet c k = none) : alistGet (c ++ [(k, v)]) k = some v := by
  induction c with
  | nil => simp [alistGet]
  | cons kv rest ih =>
    rw [alistGet] at h
    by_cases hk : kv.1 = k
    · rw [if_pos hk] at h
      exact absurd h (by simp)
    · rw [if_neg hk] at h
      rw [List.cons_append, alistGet, if_neg hk]
      exact ih h

theorem alistGet_cacheSet (c : Cache) (k : String) (v : CacheEntry) :
    alistGet (cacheSet c k v) k = some v := by
  unfold cacheSet
  by_cases h : (alistGet c k).isSome
  · rw [if_pos h]
    exact alistGet_map_replace c k v h
  · rw [if_neg h]
    exact alistGet_append_single c k v (by revert h; cases (alistGet c k) <;> simp)

/-! ## Helper lemmas: getOptionMid match predicate -/

theorem midMatch_iff (norm : String) (strike : ℚ) (expiry : String) (o : RawOption) :
    midMatch norm strike expiry o = true ↔
      ∃ p, parseOCC o.option = some p ∧ p.expiry = expiry ∧ p.ptype = norm ∧
        |p.strike - strike| < 5 / 1000 := by
  unfold midMatch
  cases hp : parseOCC o.option with
  | none => simp
  | some p =>
    simp only [Bool.and_eq_true, decide_eq_true_eq]
    constructor
    · rintro ⟨⟨h1, h2⟩, h3⟩
      exact ⟨p, rfl, h1, h2, h3⟩
    · rintro ⟨q, hq, h1, h2, h3⟩
      cases Option.some.inj hq
      exact ⟨⟨h1, h2⟩, h3⟩

/-! ## Helper lemmas: the chain query -/

theorem filterStep_fields (toTime : String → ℚ) (now : ℚ) (ty : String)
    (dteMin dteMax : ℚ) (otmOnly : Bool) (up : Option ℚ) (opt : RawOption)
    (c : FilteredContract)
    (h : filterStep toTime now ty dteMin dteMax otmOnly up opt = some c) :
    ¬ (c.mid ≤ 0) ∧ c.mid = (c.bid + c.ask) / 2 := by
  unfold filterStep at h
  cases hp : parseOCC opt.option with
  | none => rw [hp] at h; exact absurd h (by simp)
  | some parsed =>
    rw [hp] at h
    dsimp only at h
    split at h
    · exact absurd h (by simp)
    · split at h
      · exact absurd h (by simp)
      · split at h
        · exact absurd h (by simp)
        · split at h
          · exact absurd h (by simp)
          · split at h
            · exact absurd h (by simp)
            · rename_i hmid
              cases Option.some.inj h
              exact ⟨hmid, rfl⟩

theorem chainLe_total (up : Option ℚ) : ∀ a b : FilteredContract,
    chainLe up a b ∨ chainLe up b a := by
  intro a b
  unfold chainLe
  by_cases hab : a.dte = b.dte
  · rw [if_pos hab, if_pos hab.symm]
    cases up with
    | none => exact le_total a.strike b.strike
    | some u => exact le_total |a.strike - u| |b.strike - u|
  · rw [if_neg hab, if_neg (fun he => hab he.symm)]
    exact le_total a.dte b.dte

theorem chainLe_trans (up : Option ℚ) : ∀ a b c : FilteredContract,
    chainLe up a b → chainLe up b c → chainLe up a c := by
  intro a b c hab hbc
  unfold chainLe at *
  by_cases h1 : a.dte = b.dte
  · by_cases h2 : b.dte = c.dte
    · rw [if_pos h1] at hab
      rw [if_pos h2] at hbc
      rw [if_pos (h1.trans h2)]
      cases up with
      | none => exact le_trans hab hbc
      | some u => exact le_trans hab hbc
    · rw [if_neg h2] at hbc
      have hlt : b.dte < c.dte := lt_of_le_of_ne hbc h2
      have hac : a.dte < c.dte := h1 ▸ hlt
      rw [if_neg (ne_of_lt hac)]
      exact le_of_lt hac
  · rw [if_neg h1] at hab
    have hlt1 : a.dte < b.dte := lt_of_le_of_ne hab h1
    by_cases h2 : b.dte = c.dte
    · have hac : a.dte < c.dte := h2 ▸ hlt1
      rw [if_neg (ne_of_lt hac)]
      exact le_of_lt hac
    · rw [if_neg h2] at hbc
      have hlt2 : b.dte < c.dte := lt_of_le_of_ne hbc h2
      have hac : a.dte < c.dte := lt_trans hlt1 hlt2
      rw [if_neg (ne_of_lt hac)]
      exact le_of_lt hac

theorem chainLe_dte (up : Option ℚ) (a b : FilteredContract) (h : chainLe up a b) :
    a.dte ≤ b.dte := by
  unfold chainLe at h
  by_cases he : a.dte = b.dte
  · exact le_of_eq he
  · rw [if_neg he] at h
    exact h

/-! ## Helper lemmas: first-occurrence search -/

theorem findSubAux_of_first (pat : List Char) :
    ∀ (cs : List Char) (n a : Nat), pat.isPrefixOf (cs.drop n) = true →
      (∀ k < n, ¬ pat.isPrefixOf (cs.drop k) = true) →
      findSubAux pat cs a = some (a + n) := by
  intro cs
  induction cs with
  | nil =>
    intro n a h1 h2
    rw [List.drop_nil] at h1
    have hpat : pat = [] := by
      cases pat with
      | nil => rfl
      | cons c r => simp [List.isPrefixOf] at h1
    subst hpat
    have hn : n = 0 := by
      by_contra hne
      exact h2 0 (by omega) (by simp [List.isPrefixOf])
    subst hn
    simp [findSubAux]
  | cons c rest ih =>
    intro n a h1 h2
    cases n with
    | zero =>
      rw [List.drop_zero] at h1
      rw [findSubAux, if_pos h1]
      simp
    | succ n =>
      have h0 : ¬ pat.isPrefixOf ((c :: rest).drop 0) = true := h2 0 (by omega)
      rw [List.drop_zero] at h0
      rw [findSubAux, if_neg h0]
      have := ih n (a + 1) (by simpa using h1)
        (fun k hk => by
          have := h2 (k + 1) (by omega)
          simpa using this)
      rw [this]
      congr 1
      omega

theorem findSubAux_none (pat : List Char) :
    ∀ (cs : List Char) (a : Nat), (∀ k, ¬ pat.isPrefixOf (cs.drop k) = true) →
      findSubAux pat cs a = none := by
  intro cs
  induction cs with
  | nil =>
    intro a h
    have hpat : pat ≠ [] := by
      intro he
      exact h 0 (by simp [he, List.isPrefixOf])
    rw [findSubAux, if_neg hpat]
  | cons c rest ih =>
    intro a h
    rw [findSubAux, if_neg (by simpa using h 0)]
    exact ih (a + 1) (fun k => by simpa using h (k + 1))

theorem findSub_of_first (pat cs : List Char) (n : Nat)
    (h1 : pat.isPrefixOf (cs.drop n) = true)
    (h2 : ∀ k < n, ¬ pat.isPrefixOf (cs.drop k) = true) :
    findSub pat cs = some n := by
  unfold findSub
  rw [findSubAux_of_first pat cs n 0 h1 h2]
  simp

theorem findSub_none (pat cs : List Char)
    (h : ∀ k, ¬ pat.isPrefixOf (cs.drop k) = true) : findSub pat cs = none :=
  findSubAux_none pat cs 0 h

theorem findSubAux_some_prefix (pat : List Char) :
    ∀ (cs : List Char) (a i : Nat), findSubAux pat cs a = some i →
      a ≤ i ∧ pat.isPrefixOf (cs.drop (i - a)) = true := by
  intro cs
  induction cs with
  | nil =>
    intro a i h
    rw [findSubAux] at h
    by_cases hp : pat = []
    · rw [if_pos hp] at h
      cases Option.some.inj h
      subst hp
      exact ⟨le_refl a, by simp [List.isPrefixOf]⟩
    · rw [if_neg hp] at h
      exact absurd h (by simp)
  | cons c rest ih =>
    intro a i h
    rw [findSubAux] at h
    by_cases hp : pat.isPrefixOf (c :: rest) = true
    · rw [if_pos hp] at h
      cases Option.some.inj h
      exact ⟨le_refl a, by simpa using hp⟩
    · rw [if_neg hp] at h
      obtain ⟨h1, h2⟩ := ih (a + 1) i h
      refine ⟨by omega, ?_⟩
      have : i - a = (i - (a + 1)) + 1 := by omega
      rw [this]
      simpa using h2

theorem findSub_some_prefix (pat cs : List Char) (i : Nat)
    (h : findSub pat cs = some i) : pat.isPrefixOf (cs.drop i) = true := by
  have := findSubAux_some_prefix pat cs 0 i h
  simpa using this.2

theorem prefix_isPrefixOf (l r : List Char) : l.isPrefixOf (l ++ r) = true := by
  induction l with
  | nil => simp [List.isPrefixOf]
  | cons c rest ih => simp [List.isPrefixOf, ih]

theorem isPrefixOf_lt_length (pat cs : List Char) (i : Nat) (hpat : pat ≠ [])
    (h : pat.isPrefixOf (cs.drop i) = true) : i < cs.length := by
  by_contra hge
  rw [List.drop_eq_nil_of_le (by omega)] at h
  cases pat with
  | nil => exact hpat rfl
  | cons c r => simp [List.isPrefixOf] at h

/-! ## Helper lemmas: the mutation-block regex match -/

theorem fileUpdateMatch_decomp (pre inner post : List Char)
    (h2 : ∀ k < pre.length, ¬ openDelim.isPrefixOf
      ((pre ++ openDelim ++ inner ++ endDelim ++ post).drop k) = true)
    (h3 : ∀ k < inner.length, ¬ endDelim.isPrefixOf
      ((inner ++ endDelim ++ post).drop k) = true) :
    fileUpdateMatch (pre ++ openDelim ++ inner ++ endDelim ++ post) =
      some (pre, inner, post) := by
  have hassoc : pre ++ openDelim ++ inner ++ endDelim ++ post =
      pre ++ (openDelim ++ (inner ++ (endDelim ++ post))) := by
    simp [List.append_assoc]
  have hopen : findSub openDelim (pre ++ openDelim ++ inner ++ endDelim ++ post) =
      some pre.length := by
    apply findSub_of_first
    · rw [hassoc, List.drop_left]
      exact prefix_isPrefixOf openDelim _
    · exact h2
  have hrest : (pre ++ openDelim ++ inner ++ endDelim ++ post).drop
      (pre.length + openDelim.length) = inner ++ endDelim ++ post := by
    rw [hassoc, ← List.length_append pre openDelim, ← List.append_assoc]
    rw [List.drop_left]
    simp [List.append_assoc]
  have hend : findSub endDelim (inner ++ endDelim ++ post) = some inner.length := by
    apply findSub_of_first
    · rw [List.append_assoc, List.drop_left]
      exact prefix_isPrefixOf endDelim post
    · exact h3
  have htake1 : (pre ++ openDelim ++ inner ++ endDelim ++ post).take pre.length = pre := by
    rw [hassoc, List.take_left]
  have htake2 : (inner ++ endDelim ++ post).take inner.length = inner := by
    rw [List.append_assoc, List.take_left]
  have hdrop2 : (inner ++ endDelim ++ post).drop (inner.length + endDelim.length) = post := by
    rw [← List.length_append inner endDelim, List.drop_left]
  unfold fileUpdateMatch
  rw [hopen]
  dsimp only
  rw [hrest, hend]
  dsimp only
  rw [htake1, htake2, hdrop2]

theorem fileUpdateMatch_no_pair (cs : List Char)
    (h : ∀ i < cs.length, ∀ j < cs.length,
      ¬ (openDelim.isPrefixOf (cs.drop i) = true ∧
         endDelim.isPrefixOf (cs.drop j) = true ∧ i + openDelim.length ≤ j)) :
    fileUpdateMatch cs = none := by
  unfold fileUpdateMatch
  cases hfo : findSub openDelim cs with
  | none => rfl
  | some i =>
    dsimp only
    have hopen : openDelim.isPrefixOf (cs.drop i) = true :=
      findSub_some_prefix openDelim cs i hfo
    have hi : i < cs.length := isPrefixOf_lt_length _ _ _ (by decide) hopen
    have hnone : findSub endDelim (cs.drop (i + openDelim.length)) = none := by
      apply findSub_none
      intro k hpre
      rw [List.drop_drop] at hpre
      have hj : i + openDelim.length + k < cs.length :=
        isPrefixOf_lt_length _ _ _ (by decide) hpre
      exact h i hi (i + openDelim.length + k) hj ⟨hopen, hpre, by omega⟩
    rw [hnone]

/-! ## Helper lemmas: orchestrator event counting -/

theorem finalTextEvents_filter_toolCall (chunks : List AChunk) :
    (finalTextEvents chunks).filter isToolCall = [] := by
  rw [List.filter_eq_nil_iff]
  intro e he
  obtain ⟨c, _, hc⟩ := List.mem_filterMap.mp he
  cases c with
  | textDelta s =>
    cases Option.some.inj hc
    simp [isToolCall]
  | other => exact absurd hc (by simp)

theorem finalTextEvents_filter_done (chunks : List AChunk) :
    (finalTextEvents chunks).filter isDone = [] := by
  rw [List.filter_eq_nil_iff]
  intro e he
  obtain ⟨c, _, hc⟩ := List.mem_filterMap.mp he
  cases c with
  | textDelta s =>
    cases Option.some.inj hc
    simp [isDone]
  | other => exact absurd hc (by simp)

theorem map_text_filter_toolCall (l : List String) :
    (l.map SSEEvent.text).filter isToolCall = [] := by
  rw [List.filter_eq_nil_iff]
  intro e he
  obtain ⟨s, _, rfl⟩ := List.mem_map.mp he
  simp [isToolCall]

theorem map_text_filter_done (l : List String) :
    (l.map SSEEvent.text).filter isDone = [] := by
  rw [List.filter_eq_nil_iff]
  intro e he
  obtain ⟨s, _, rfl⟩ := List.mem_map.mp he
  simp [isDone]

theorem map_toolCall_filter_toolCall (l : List (String × String × String)) :
    ((l.map (fun b => SSEEvent.toolCall b.2.1 b.2.2)).filter isToolCall) =
      l.map (fun b => SSEEvent.toolCall b.2.1 b.2.2) := by
  rw [List.filter_eq_self]
  intro e he
  obtain ⟨b, _, rfl⟩ := List.mem_map.mp he
  simp [isToolCall]

theorem map_toolCall_filter_done (l : List (String × String × String)) :
    ((l.map (fun b => SSEEvent.toolCall b.2.1 b.2.2)).filter isDone) = [] := by
  rw [List.filter_eq_nil_iff]
  intro e he
  obtain ⟨b, _, rfl⟩ := List.mem_map.mp he
  simp [isDone]

theorem map_toolCall2_filter_toolCall (l : List (String × String)) :
    ((l.map (fun c => SSEEvent.toolCall c.1 c.2)).filter isToolCall) =
      l.map (fun c => SSEEvent.toolCall c.1 c.2) := by
  rw [List.filter_eq_self]
  intro e he
  obtain ⟨b, _, rfl⟩ := List.mem_map.mp he
  simp [isToolCall]

theorem map_toolCall2_filter_done (l : List (String × String)) :
    ((l.map (fun c => SSEEvent.toolCall c.1 c.2)).filter isDone) = [] := by
  rw [List.filter_eq_nil_iff]
  intro e he
  obtain ⟨b, _, rfl⟩ := List.mem_map.mp he
  simp [isDone]

theorem map_toolCall2_filter_text (l : List (String × String)) :
    ((l.map (fun c => SSEEvent.toolCall c.1 c.2)).filter isTextEv) = [] := by
  rw [List.filter_eq_nil_iff]
  intro e he
  obtain ⟨b, _, rfl⟩ := List.mem_map.mp he
  simp [isTextEv]

theorem anthropicRounds_counts (P : List AMsg → AResponse)
    (E : String → String → String)
    (h : ∀ ms, (P ms).stop_reason = AStop.toolUse ∧
      (toolUseBlocks (P ms).content).length = 1) :
    ∀ n msgs, (((anthropicRounds P E n msgs).1).filter isToolCall).length = n ∧
      (((anthropicRounds P E n msgs).1).filter isDone).length = 0 := by
  intro n
  induction n with
  | zero =>
    intro msgs
    simp [anthropicRounds]
  | succ n ih =>
    intro msgs
    rw [anthropicRounds, if_pos (h msgs).1]
    dsimp only
    rw [List.filter_append, List.filter_append, List.length_append, List.length_append]
    rw [map_toolCall_filter_toolCall, map_toolCall_filter_done]
    rw [List.length_map, (h msgs).2]
    have := ih (msgs ++ [⟨"assistant", AContent.blocks (P msgs).content⟩,
      ⟨"user", AContent.toolResults ((toolUseBlocks (P msgs).content).map
        (fun b => (b.1, E b.2.1 b.2.2)))⟩])
    rw [this.1, this.2]
    constructor
    · omega
    · rfl

theorem geminiRounds_counts (send : List GSendable → GResponse)
    (E : String → String → String)
    (h : ∀ sent, (send sent).functionCalls.length = 1) :
    ∀ n sent, ((geminiRounds send E n sent).filter isToolCall).length = n ∧
      ((geminiRounds send E n sent).filter isDone).length = 0 := by
  intro n
  induction n with
  | zero =>
    intro sent
    simp [geminiRounds]
  | succ n ih =>
    intro sent
    have hne : (send sent).functionCalls ≠ [] := by
      intro he
      have := h sent
      rw [he] at this
      simp at this
    rw [geminiRounds, if_neg hne]
    dsimp only
    rw [List.filter_append, List.filter_append, List.length_append, List.length_append]
    rw [map_toolCall2_filter_toolCall, map_toolCall2_filter_done]
    rw [List.length_map, h sent]
    have := ih (sent ++ [GSendable.funcResponses ((send sent).functionCalls.map
      (fun c => (c.1, E c.1 c.2)))])
    rw [this.1, this.2]
    constructor
    · omega
    · rfl

theorem geminiRounds_no_text (send : List GSendable → GResponse)
    (E : String → String → String)
    (h : ∀ sent, (send sent).functionCalls ≠ []) :
    ∀ n sent, (geminiRounds send E n sent).filter isTextEv = [] := by
  intro n
  induction n with
  | zero =>
    intro sent
    simp [geminiRounds]
  | succ n ih =>
    intro sent
    rw [geminiRounds, if_neg (h sent)]
    dsimp only
    rw [List.filter_append, map_toolCall2_filter_text, ih]
    rfl

/-! ## Claim theorems -/

/-- C3: after a successful fetch at time now stored for a ticker, a read
less than TTL_MS later returns the stored list and state for every possible
upstream behaviour (so upstream is not contacted); a read at or past the
TTL refetches, replacing the entry wholesale on success; and when that
refetch fails the call fails with the HTTP status even though the stale
entry is still present in the cache (no stale fallback). -/
theorem fetchChain_ttl (st : Cache) (now : Nat) (ticker : String) (opts : List RawOption) :
    fetchUpstream st now ticker (.ok opts) = (.ok opts, cacheSet st ticker ⟨now, opts⟩) ∧
    (∀ now' u, now' - now < TTL_MS →
      fetchChain (cacheSet st ticker ⟨now, opts⟩) now' ticker u =
        (.ok opts, cacheSet st ticker ⟨now, opts⟩)) ∧
    (∀ now' opts', TTL_MS ≤ now' - now →
      fetchChain (cacheSet st ticker ⟨now, opts⟩) now' ticker (.ok opts') =
        (.ok opts', cacheSet (cacheSet st ticker ⟨now, opts⟩) ticker ⟨now', opts'⟩)) ∧
    (∀ now' status, TTL_MS ≤ now' - now →
      alistGet (cacheSet st ticker ⟨now, opts⟩) ticker = some ⟨now, opts⟩ ∧
      fetchChain (cacheSet st ticker ⟨now, opts⟩) now' ticker (.httpError status) =
        (.error status, cacheSet st ticker ⟨now, opts⟩)) := by
  have hlook : alistGet (cacheSet st ticker ⟨now, opts⟩) ticker = some ⟨now, opts⟩ :=
    alistGet_cacheSet st ticker ⟨now, opts⟩
  refine ⟨rfl, ?_, ?_, ?_⟩
  · intro now' u h
    unfold fetchChain
    rw [hlook]
    dsimp only
    rw [if_pos h]
  · intro now' opts' h
    unfold fetchChain
    rw [hlook]
    dsimp only
    rw [if_neg (by omega)]
    rfl
  · intro now' status h
    refine ⟨hlook, ?_⟩
    unfold fetchChain
    rw [hlook]
    dsimp only
    rw [if_neg (by omega)]
    rfl

/-- C3, witness: concrete single-ticker cache. A read 1 ms after the fetch
returns the cached empty list even though upstream would fail; a read
exactly at the TTL with a failing upstream returns the 404 error while the
stale entry is still cached. -/
theorem fetchChain_ttl_witness :
    fetchChain (cacheSet [] "AAPL" ⟨0, []⟩) 1 "AAPL" (.httpError 404) =
      (.ok [], cacheSet [] "AAPL" ⟨0, []⟩) ∧
    fetchChain (cacheSet [] "AAPL" ⟨0, []⟩) TTL_MS "AAPL" (.httpError 404) =
      (.error 404, cacheSet [] "AAPL" ⟨0, []⟩) :=
  ⟨(fetchChain_ttl [] 0 "AAPL" []).2.1 1 (.httpError 404) (by decide),
   ((fetchChain_ttl [] 0 "AAPL" []).2.2.2 TTL_MS 404 (by decide)).2⟩

/-- C9: the single-contract lookup is a total function (it never raises);
it returns none when the chain fetch failed and when no record decodes to
the requested kind, an equal expiry, and a strike within 0.005; whenever
some record matches, it returns a result taken from a matching record with
bid and ask copied and mid = (bid + ask) / 2; and any returned result comes
from a matching record with mid = (bid + ask) / 2. -/
theorem getOptionMid_spec (fetched : Except Nat (List RawOption)) (ty : String)
    (strike : ℚ) (expiry : String) :
    (∀ status, fetched = .error status → getOptionMid fetched ty strike expiry = none) ∧
    (∀ opts, fetched = .ok opts →
      ((∀ o ∈ opts, ¬ ∃ p, parseOCC o.option = some p ∧ p.expiry = expiry ∧
          p.ptype = jsToLower ty ∧ |p.strike - strike| < 5 / 1000) →
        getOptionMid fetched ty strike expiry = none) ∧
      ((∃ o ∈ opts, ∃ p, parseOCC o.option = some p ∧ p.expiry = expiry ∧
          p.ptype = jsToLower ty ∧ |p.strike - strike| < 5 / 1000) →
        ∃ r m, getOptionMid fetched ty strike expiry = some r ∧ m ∈ opts ∧
          (∃ p, parseOCC m.option = some p ∧ p.expiry = expiry ∧
            p.ptype = jsToLower ty ∧ |p.strike - strike| < 5 / 1000) ∧
          r.bid = m.bid ∧ r.ask = m.ask ∧ r.mid = (m.bid + m.ask) / 2) ∧
      (∀ r, getOptionMid fetched ty strike expiry = some r →
        ∃ o ∈ opts, (∃ p, parseOCC o.option = some p ∧ p.expiry = expiry ∧
            p.ptype = jsToLower ty ∧ |p.strike - strike| < 5 / 1000) ∧
          r.mid = (o.bid + o.ask) / 2)) := by
  constructor
  · rintro status rfl
    rfl
  · rintro opts rfl
    refine ⟨?_, ?_, ?_⟩
    · intro hno
      unfold getOptionMid
      dsimp only
      have hfind : opts.find? (midMatch (jsToLower ty) strike expiry) = none := by
        rw [List.find?_eq_none]
        intro o ho hmm
        exact hno o ho ((midMatch_iff _ _ _ o).mp hmm)
      rw [hfind]
    · rintro ⟨o, ho, hp⟩
      cases hfind : opts.find? (midMatch (jsToLower ty) strike expiry) with
      | none =>
        rw [List.find?_eq_none] at hfind
        exact absurd ((midMatch_iff _ _ _ o).mpr hp) (hfind o ho)
      | some m =>
        refine ⟨⟨m.bid, m.ask, (m.bid + m.ask) / 2, m.last_trade_price, m.iv⟩, m, ?_,
          List.mem_of_find?_eq_some hfind,
          (midMatch_iff _ _ _ m).mp (List.find?_some hfind), rfl, rfl, rfl⟩
        unfold getOptionMid
        dsimp only
        rw [hfind]
    · intro r hr
      unfold getOptionMid at hr
      dsimp only at hr
      cases hfind : opts.find? (midMatch (jsToLower ty) strike expiry) with
      | none => rw [hfind] at hr; exact absurd hr (by simp)
      | some m =>
        rw [hfind] at hr
        have hmem : m ∈ opts := List.mem_of_find?_eq_some hfind
        have hmatch : midMatch (jsToLower ty) strike expiry m = true :=
          List.find?_some hfind
        refine ⟨m, hmem, (midMatch_iff _ _ _ m).mp hmatch, ?_⟩
        cases Option.some.inj hr
        rfl

/-- C1: for every ticker chain, clock, date parser and filter, the chain
query returns at most min(requested max, 50) contracts, the result is
sorted non-decreasing in the DTE field, and no returned contract has
mid = (bid + ask) / 2 at or below zero. -/
theorem getFilteredChain_spec (toTime : String → ℚ) (nowMs : ℚ)
    (options : List RawOption) (filter : ChainFilter) :
    (getFilteredChain toTime nowMs options filter).length ≤
      min (filter.maxResults.getD 25) 50 ∧
    List.Pairwise (fun a b : FilteredContract => a.dte ≤ b.dte)
      (getFilteredChain toTime nowMs options filter) ∧
    (∀ c ∈ getFilteredChain toTime nowMs options filter,
      ¬ (c.mid ≤ 0) ∧ c.mid = (c.bid + c.ask) / 2) := by
  haveI : IsTotal FilteredContract (chainLe filter.underlyingPrice) :=
    ⟨chainLe_total filter.underlyingPrice⟩
  haveI : IsTrans FilteredContract (chainLe filter.underlyingPrice) :=
    ⟨chainLe_trans filter.underlyingPrice⟩
  unfold getFilteredChain
  dsimp only
  refine ⟨?_, ?_, ?_⟩
  · rw [List.length_take]
    exact min_le_left _ _
  · have hsorted : List.Pairwise (chainLe filter.underlyingPrice)
        (List.insertionSort (chainLe filter.underlyingPrice)
          (options.filterMap (filterStep toTime (nowMs / 1000)
            (filter.type.getD "both") (filter.dteMin.getD 20) (filter.dteMax.getD 90)
            (filter.otmOnly.getD true) filter.underlyingPrice))) :=
      List.sorted_insertionSort _ _
    have htake := List.Pairwise.sublist (List.take_sublist (min (filter.maxResults.getD 25) 50) _) hsorted
    exact htake.imp (fun h => chainLe_dte filter.underlyingPrice _ _ h)
  · intro c hc
    have hc1 : c ∈ List.insertionSort (chainLe filter.underlyingPrice)
        (options.filterMap (filterStep toTime (nowMs / 1000)
          (filter.type.getD "both") (filter.dteMin.getD 20) (filter.dteMax.getD 90)
          (filter.otmOnly.getD true) filter.underlyingPrice)) :=
      (List.take_sublist _ _).subset hc
    have hc2 := (List.perm_insertionSort (chainLe filter.underlyingPrice) _).mem_iff.mp hc1
    obtain ⟨o, _, ho⟩ := List.mem_filterMap.mp hc2
    exact filterStep_fields _ _ _ _ _ _ _ o c ho

/-- C9, witness: a failed fetch yields none; a successful fetch of an
empty chain (no matching record) yields none; and a one-record chain whose
record matches the requested call at strike 100 expiring 2026-03-21 yields
a returned result from a matching record with bid and ask copied and
mid = (bid + ask) / 2 — concretely, bid 2 and ask 4 give mid 3. -/
theorem getOptionMid_spec_witness :
    getOptionMid (.error 404) "call" 100 "2026-03-21" = none ∧
    getOptionMid (.ok []) "call" 100 "2026-03-21" = none ∧
    (∃ r m, getOptionMid
          (.ok [⟨"AAPL260321C00100000", 2, 4, 1/2, 0, 0, 0, 1, 0⟩])
          "call" 100 "2026-03-21" = some r ∧
        m ∈ [(⟨"AAPL260321C00100000", 2, 4, 1/2, 0, 0, 0, 1, 0⟩ : RawOption)] ∧
        (∃ p, parseOCC m.option = some p ∧ p.expiry = "2026-03-21" ∧
          p.ptype = jsToLower "call" ∧ |p.strike - 100| < 5 / 1000) ∧
        r.bid = m.bid ∧ r.ask = m.ask ∧ r.mid = (m.bid + m.ask) / 2) ∧
    getOptionMid (.ok [⟨"AAPL260321C00100000", 2, 4, 1/2, 0, 0, 0, 1, 0⟩])
        "call" 100 "2026-03-21" = some ⟨2, 4, 3, 1, 1/2⟩ := by
  have hmatch : midMatch (jsToLower "call") 100 "2026-03-21"
      ⟨"AAPL260321C00100000", 2, 4, 1/2, 0, 0, 0, 1, 0⟩ = true :=
    (midMatch_iff _ _ _ _).mpr
      ⟨⟨"2026-03-21", "call", ((100000 : ℕ) : ℚ) / 1000⟩, rfl, rfl, by decide,
        by norm_num⟩
  refine ⟨(getOptionMid_spec (.error 404) "call" 100 "2026-03-21").1 404 rfl,
    ((getOptionMid_spec (.ok []) "call" 100 "2026-03-21").2 [] rfl).1
      (by intro o ho; exact absurd ho (by simp)),
    ((getOptionMid_spec (.ok [⟨"AAPL260321C00100000", 2, 4, 1/2, 0, 0, 0, 1, 0⟩])
        "call" 100 "2026-03-21").2 _ rfl).2.1
      ⟨⟨"AAPL260321C00100000", 2, 4, 1/2, 0, 0, 0, 1, 0⟩, by simp,
        ⟨"2026-03-21", "call", ((100000 : ℕ) : ℚ) / 1000⟩, rfl, rfl, by decide,
        by norm_num⟩, ?_⟩
  unfold getOptionMid
  dsimp only
  rw [List.find?_cons_of_pos _ hmatch]
  norm_num

/-- C2, counterexample: the decoder does not reproduce the ticker. Encoding
the same kind, strike and expiry under the two distinct tickers AAPL and
MSFT and decoding yields identical records, so no reading of the decoder
output can recover the ticker; parseOCC discards the ticker capture. -/
theorem parseOCC_drops_ticker :
    parseOCC (encodeOCC "AAPL" "call" (((100000 : ℕ) : ℚ) / 1000) (fmtDate 2026 3 21)) =
      parseOCC (encodeOCC "MSFT" "call" (((100000 : ℕ) : ℚ) / 1000) (fmtDate 2026 3 21)) ∧
    ("AAPL" : String) ≠ "MSFT" := by
  constructor
  · rw [parse_encode_aux "AAPL" "call" 100000 2026 3 21 (by decide) (by decide)
      (Or.inl rfl) (by norm_num) (by omega) (by omega) (by omega) (by omega)]
    rw [parse_encode_aux "MSFT" "call" 100000 2026 3 21 (by decide) (by decide)
      (Or.inl rfl) (by norm_num) (by omega) (by omega) (by omega) (by omega)]
  · decide

/-- C2 (amended): for every nonempty uppercase ticker, kind call or put,
strike s/1000 with s below 10^8, and date with year 2000..2099, decoding
the symbol built by the encoder reproduces the kind, the strike to the
nearest 0.001 exactly, and the expiry string exactly; the ticker is only
validated by the decoder, not returned. -/
theorem occ_encode_decode_roundtrip (tk ty : String) (s y m d : Nat)
    (htk : tk.toList ≠ []) (htkU : ∀ c ∈ tk.toList, c.isUpper = true)
    (hty : ty = "call" ∨ ty = "put") (hs : s < 10 ^ 8)
    (hy1 : 2000 ≤ y) (hy2 : y ≤ 2099)
    (hm1 : 1 ≤ m) (hm2 : m ≤ 12) (hd1 : 1 ≤ d) (hd2 : d ≤ 31) :
    parseOCC (encodeOCC tk ty ((s : ℚ) / 1000) (fmtDate y m d)) =
      some ⟨fmtDate y m d, ty, (s : ℚ) / 1000⟩ :=
  parse_encode_aux tk ty s y m d htk htkU hty hs hy1 hy2 (by omega) (by omega)

/-- C2, witness: the round trip evaluated at a concrete put contract. -/
theorem occ_encode_decode_roundtrip_witness :
    parseOCC (encodeOCC "AAPL" "put" (((12345 : ℕ) : ℚ) / 1000) (fmtDate 2027 12 31)) =
      some ⟨fmtDate 2027 12 31, "put", ((12345 : ℕ) : ℚ) / 1000⟩ :=
  occ_encode_decode_roundtrip "AAPL" "put" 12345 2027 12 31 (by decide) (by decide)
    (Or.inr rfl) (by norm_num) (by omega) (by omega) (by omega) (by omega)
    (by omega) (by omega)

/-- C8: decoding returns none exactly when the symbol fails the regex shape
test (length at least 16, uppercase ticker, six date digits, C or P, eight
strike digits); a malformed symbol of any kind gives none and never a
partial record, and parseOCC is a total function, so it never throws. -/
theorem parseOCC_malformed_none (s : String) :
    parseOCC s = none ↔ occShapeOK s = false :=
  parseOCC_none_iff s

/-- C10: the decoder validates only the shape, not the calendar: for any
uppercase ticker, any six date digits, C or P, and any eight strike digits
the decode succeeds and returns the expiry string 20YY-MM-DD built verbatim
from those digits, with no check that the month or day denotes a real
date. -/
theorem parseOCC_shape_only (tk : List Char) (y1 y2 m1 m2 d1 d2 cp : Char)
    (d8 : List Char) (htk : tk ≠ []) (htkU : tk.all Char.isUpper = true)
    (hdig : [y1, y2, m1, m2, d1, d2].all Char.isDigit = true)
    (hcp : cp = 'C' ∨ cp = 'P') (h8 : d8.length = 8)
    (h8d : d8.all Char.isDigit = true) :
    parseOCC (String.mk (tk ++ [y1, y2, m1, m2, d1, d2] ++ cp :: d8)) =
      some ⟨String.mk ['2', '0', y1, y2, '-', m1, m2, '-', d1, d2],
        if cp = 'C' then "call" else "put", (digitsToNat d8 : ℚ) / 1000⟩ := by
  rw [parseOCC_concat tk [y1, y2, m1, m2, d1, d2] cp d8 htk htkU (by simp)
    hdig hcp h8 h8d]
  rfl

/-- C10, witness: month 13 and day 40 are not calendar dates, yet the
symbol decodes and the impossible expiry 2099-13-40 is returned verbatim. -/
theorem parseOCC_shape_only_witness :
    parseOCC (String.mk ("AB".toList ++ ['9', '9', '1', '3', '4', '0'] ++
        'C' :: "00001000".toList)) =
      some ⟨"2099-13-40", "call", (digitsToNat "00001000".toList : ℚ) / 1000⟩ := by
  rw [parseOCC_shape_only "AB".toList '9' '9' '1' '3' '4' '0' 'C' "00001000".toList
    (by decide) (by decide) (by decide) (Or.inl rfl) (by decide) (by decide)]
  rfl

/-- C4: the four documented behaviours of the 30-day IV estimator on
synthetic chains under the test clock tt0 with current time zero.
A chain whose surviving buckets give the points (DTE 20, IV 0.30) and
(DTE 40, IV 0.40) returns 0.35, the linear midpoint; a single surviving
bucket at DTE 10 returns that bucket IV 0.5 unchanged (flat clamp); a chain
with no positive-IV contract returns none; and with points at DTE 29.5
(IV 0.5) and DTE 40 (IV 0.9) the point within one day of 30 is returned
directly (0.5, not the interpolated value 0.5 + 2/105). -/
theorem calcIV30_scenarios :
    calcIV30 tt0 0
        [rawIV "XYZ260121C00100000" (3/10), rawIV "XYZ260210C00100000" (2/5)] 100 =
      some (7/20) ∧
    calcIV30 tt0 0 [rawIV "XYZ260111C00100000" (1/2)] 100 = some (1/2) ∧
    calcIV30 tt0 0
        [rawIV "XYZ260121C00100000" 0, rawIV "XYZ260121P00100000" 0] 100 = none ∧
    calcIV30 tt0 0
        [rawIV "XYZ260130C00100000" (1/2), rawIV "XYZ260210C00100000" (9/10)] 100 =
      some (1/2) := by
  have h1 : parseOCC "XYZ260121C00100000" =
      some ⟨"2026-01-21", "call", (100000 : ℚ) / 1000⟩ := rfl
  have h2 : parseOCC "XYZ260210C00100000" =
      some ⟨"2026-02-10", "call", (100000 : ℚ) / 1000⟩ := rfl
  have h3 : parseOCC "XYZ260111C00100000" =
      some ⟨"2026-01-11", "call", (100000 : ℚ) / 1000⟩ := rfl
  have h4 : parseOCC "XYZ260121P00100000" =
      some ⟨"2026-01-21", "put", (100000 : ℚ) / 1000⟩ := rfl
  have h5 : parseOCC "XYZ260130C00100000" =
      some ⟨"2026-01-30", "call", (100000 : ℚ) / 1000⟩ := rfl
  have hs1 : (("2026-01-21" : String) = "2026-02-10") = False := by simp
  have hs2 : (("2026-02-10" : String) = "2026-01-21") = False := by simp
  have hs3 : (("2026-01-30" : String) = "2026-02-10") = False := by simp
  have hs4 : (("2026-02-10" : String) = "2026-01-30") = False := by simp
  have hs5 : (("2026-01-11" : String) = "2026-01-21") = False := by simp
  have hs6 : (("2026-01-11" : String) = "2026-02-10") = False := by simp
  have hs7 : (("2026-01-30" : String) = "2026-01-21") = False := by simp
  have hs8 : (("2026-01-30" : String) = "2026-01-11") = False := by simp
  refine ⟨?_, ?_, ?_, ?_⟩
  · norm_num [calcIV30, buildBuckets, bucketPoint, atmOf, pushOpt, tt0, alistGet,
      rawIV, h1, h2, hs1, hs2, List.insertionSort, List.orderedInsert,
      List.find?, List.getLast?, abs_sub_lt_iff, abs_lt,
      List.filterMap_cons, List.filterMap_nil, Option.map_some', Option.map_none',
      List.filter_cons, List.filter_nil, List.sum_cons, List.sum_nil,
      List.foldl_cons, List.foldl_nil]
    intro h
    simp at h
  · norm_num [calcIV30, buildBuckets, bucketPoint, atmOf, pushOpt, tt0, alistGet,
      rawIV, h3, hs5, hs6, List.insertionSort, List.orderedInsert,
      List.find?, List.getLast?, abs_sub_lt_iff, abs_lt,
      List.filterMap_cons, List.filterMap_nil, Option.map_some', Option.map_none',
      List.filter_cons, List.filter_nil, List.sum_cons, List.sum_nil,
      List.foldl_cons, List.foldl_nil]
  · norm_num [calcIV30, buildBuckets, bucketPoint, atmOf, pushOpt, tt0, alistGet,
      rawIV, h1, h4, List.foldl_cons, List.foldl_nil]
  · norm_num [calcIV30, buildBuckets, bucketPoint, atmOf, pushOpt, tt0, alistGet,
      rawIV, h5, h2, hs2, hs3, hs4, hs7, hs8, List.insertionSort, List.orderedInsert,
      List.find?, List.getLast?, abs_sub_lt_iff, abs_lt,
      List.filterMap_cons, List.filterMap_nil, Option.map_some', Option.map_none',
      List.filter_cons, List.filter_nil, List.sum_cons, List.sum_nil,
      List.foldl_cons, List.foldl_nil]
    intro h
    simp at h

/-- C7, counterexample: the cleaned display text is trimmed, not merely the
input with the delimited block removed. For the input consisting of the
prefix followed by a newline and then a well-formed block, removing the
block leaves the prefix with its trailing whitespace, but the extractor
returns the trimmed prefix, which differs. -/
theorem extractFileUpdate_trims :
    extractFileUpdate pj0 "a \n<<<FILE_UPDATE>>>J<<<END_FILE_UPDATE>>>" =
      ("a", some ⟨FileTarget.holdings, "new"⟩) ∧
    "a \n<<<FILE_UPDATE>>>J<<<END_FILE_UPDATE>>>".toList =
      "a \n".toList ++ openDelim ++ "J".toList ++ endDelim ++ [] ∧
    ("a" : String) ≠ "a \n" := by
  refine ⟨by decide, by decide, by decide⟩

/-- C7 (amended): for a text decomposing as prefix, opening delimiter,
payload, closing delimiter, suffix, where the opening delimiter first
occurs at the prefix boundary and the closing delimiter first occurs at
the payload boundary: if the trimmed payload parses, the extractor returns
the parsed command together with the text with the block removed and then
trimmed; if the text has no delimiter pair at all it returns no command
and the identical text; and if the payload fails to parse it returns no
command and the original text verbatim. -/
theorem extractFileUpdate_spec (parseJson : String → Option FileUpdate) (text : String) :
    (∀ pre inner post u,
      text.toList = pre ++ openDelim ++ inner ++ endDelim ++ post →
      (∀ k < pre.length, ¬ openDelim.isPrefixOf (text.toList.drop k) = true) →
      (∀ k < inner.length,
        ¬ endDelim.isPrefixOf ((inner ++ endDelim ++ post).drop k) = true) →
      parseJson (jsTrim (String.mk inner)) = some u →
      extractFileUpdate parseJson text = (jsTrim (String.mk (pre ++ post)), some u)) ∧
    ((∀ i < text.toList.length, ∀ j < text.toList.length,
        ¬ (openDelim.isPrefixOf (text.toList.drop i) = true ∧
           endDelim.isPrefixOf (text.toList.drop j) = true ∧
           i + openDelim.length ≤ j)) →
      extractFileUpdate parseJson text = (text, none)) ∧
    (∀ pre inner post,
      text.toList = pre ++ openDelim ++ inner ++ endDelim ++ post →
      (∀ k < pre.length, ¬ openDelim.isPrefixOf (text.toList.drop k) = true) →
      (∀ k < inner.length,
        ¬ endDelim.isPrefixOf ((inner ++ endDelim ++ post).drop k) = true) →
      parseJson (jsTrim (String.mk inner)) = none →
      extractFileUpdate parseJson text = (text, none)) := by
  refine ⟨?_, ?_, ?_⟩
  · intro pre inner post u hdec h2 h3 hparse
    unfold extractFileUpdate
    rw [hdec] at h2 ⊢
    rw [fileUpdateMatch_decomp pre inner post h2 h3]
    dsimp only
    rw [hparse]
  · intro h
    unfold extractFileUpdate
    rw [fileUpdateMatch_no_pair text.toList h]
  · intro pre inner post hdec h2 h3 hparse
    unfold extractFileUpdate
    rw [hdec] at h2
    rw [hdec, fileUpdateMatch_decomp pre inner post h2 h3]
    dsimp only
    rw [hparse]

/-- C7, witness: the three branches at concrete inputs. A well-formed
holdings payload is extracted with the block removed and trimmed away; a
delimiter-free text is returned unchanged with no command; an unparseable
payload leaves the original text verbatim with no command. -/
theorem extractFileUpdate_spec_witness :
    extractFileUpdate pj0 "a \n<<<FILE_UPDATE>>>J<<<END_FILE_UPDATE>>>" =
      ("a", some ⟨FileTarget.holdings, "new"⟩) ∧
    extractFileUpdate pj0 "hello" = ("hello", none) ∧
    extractFileUpdate pj0 "x<<<FILE_UPDATE>>>?<<<END_FILE_UPDATE>>>" =
      ("x<<<FILE_UPDATE>>>?<<<END_FILE_UPDATE>>>", none) := by
  refine ⟨?_, ?_, ?_⟩
  · have h := (extractFileUpdate_spec pj0 "a \n<<<FILE_UPDATE>>>J<<<END_FILE_UPDATE>>>").1
      "a \n".toList "J".toList [] ⟨FileTarget.holdings, "new"⟩
      (by decide) (by decide) (by decide) (by decide)
    rw [h]
    decide
  · exact (extractFileUpdate_spec pj0 "hello").2.1 (by decide)
  · exact (extractFileUpdate_spec pj0 "x<<<FILE_UPDATE>>>?<<<END_FILE_UPDATE>>>").2.2
      "x".toList "?".toList [] (by decide) (by decide) (by decide) (by decide)

/-- C5, counterexample: with a tool executor, the Gemini path never issues
a final streaming request. Against a provider requesting a tool on every
round, the turn emits five tool-call announcements and the terminal marker,
and no partial-text event at all, although the streaming call would have
produced the chunk hello; the claimed final streaming forwarding does not
happen for this provider. -/
theorem streamGemini_no_final_stream :
    streamGemini gAlwaysTool gStreamHello (some execStub) msgs0 =
      List.replicate 5 (SSEEvent.toolCall "get_option_chain" "args") ++
        [SSEEvent.done] ∧
    (streamGemini gAlwaysTool gStreamHello (some execStub) msgs0).filter isTextEv = [] ∧
    gStreamHello (lastContent msgs0) = ["hello"] := by
  refine ⟨by decide, by decide, rfl⟩

/-- C5 (amended): the Anthropic path, with or without an executor, ends the
turn with one final streaming request over the accumulated message list,
forwarding its text deltas as partial-text events between the tool-round
events and the terminal marker. The Gemini path streams only when no
executor is supplied; with an executor the whole turn is the non-streaming
tool loop followed by the terminal marker, independent of the streaming
stub, and when the provider requests tools on every round no text event is
emitted at all. -/
theorem orchestrator_final_streaming (P : List AMsg → AResponse)
    (S : Bool → List AMsg → List AChunk) (E : String → String → String)
    (send : List GSendable → GResponse) (sst : String → List String)
    (msgs : List ChatMsg) :
    streamAnthropic P S (some E) msgs =
      (anthropicRounds P E 5 (initAMsgs msgs)).1 ++
        finalTextEvents (S true (anthropicRounds P E 5 (initAMsgs msgs)).2) ++
        [SSEEvent.done] ∧
    streamAnthropic P S none msgs =
      finalTextEvents (S false (initAMsgs msgs)) ++ [SSEEvent.done] ∧
    streamGemini send sst none msgs =
      ((sst (lastContent msgs)).filter (fun t => decide (t ≠ ""))).map SSEEvent.text ++
        [SSEEvent.done] ∧
    streamGemini send sst (some E) msgs =
      geminiRounds send E 5 [GSendable.text (lastContent msgs)] ++ [SSEEvent.done] ∧
    ((∀ sent, (send sent).functionCalls ≠ []) →
      (streamGemini send sst (some E) msgs).filter isTextEv = []) := by
  refine ⟨rfl, rfl, rfl, rfl, ?_⟩
  · intro h
    unfold streamGemini
    dsimp only
    rw [List.filter_append, geminiRounds_no_text send E h]
    rfl

/-- C5, witness: the amended statement at the concrete always-tool
providers, one-chunk streaming stubs and one-message transcript. -/
theorem orchestrator_final_streaming_witness :
    streamAnthropic aAlwaysTool aStreamHello (some execStub) msgs0 =
      (anthropicRounds aAlwaysTool execStub 5 (initAMsgs msgs0)).1 ++
        finalTextEvents (aStreamHello true
          (anthropicRounds aAlwaysTool execStub 5 (initAMsgs msgs0)).2) ++
        [SSEEvent.done] ∧
    (streamGemini gAlwaysTool gStreamHello (some execStub) msgs0).filter isTextEv =
      [] := by
  have h := orchestrator_final_streaming aAlwaysTool aStreamHello execStub
    gAlwaysTool gStreamHello msgs0
  exact ⟨h.1, h.2.2.2.2 (fun _ => by simp [gAlwaysTool])⟩

/-- C6: for both providers, a turn without a tool executor emits zero
tool-invocation events and exactly one terminal event; and against a
provider that requests exactly one tool on every round, a turn with an
executor performs exactly the bounded five tool rounds, emitting five
tool-invocation events and exactly one terminal event, and terminates. -/
theorem orchestrator_tool_bounds :
    (∀ (P : List AMsg → AResponse) (S : Bool → List AMsg → List AChunk)
        (msgs : List ChatMsg),
      (streamAnthropic P S none msgs).filter isToolCall = [] ∧
      ((streamAnthropic P S none msgs).filter isDone).length = 1) ∧
    (∀ (send : List GSendable → GResponse) (sst : String → List String)
        (msgs : List ChatMsg),
      (streamGemini send sst none msgs).filter isToolCall = [] ∧
      ((streamGemini send sst none msgs).filter isDone).length = 1) ∧
    (∀ (P : List AMsg → AResponse) (S : Bool → List AMsg → List AChunk)
        (E : String → String → String) (msgs : List ChatMsg),
      (∀ ms, (P ms).stop_reason = AStop.toolUse ∧
        (toolUseBlocks (P ms).content).length = 1) →
      ((streamAnthropic P S (some E) msgs).filter isToolCall).length = 5 ∧
      ((streamAnthropic P S (some E) msgs).filter isDone).length = 1) ∧
    (∀ (send : List GSendable → GResponse) (sst : String → List String)
        (E : String → String → String) (msgs : List ChatMsg),
      (∀ sent, (send sent).functionCalls.length = 1) →
      ((streamGemini send sst (some E) msgs).filter isToolCall).length = 5 ∧
      ((streamGemini send sst (some E) msgs).filter isDone).length = 1) := by
  refine ⟨?_, ?_, ?_, ?_⟩
  · intro P S msgs
    unfold streamAnthropic
    dsimp only
    rw [List.filter_append, List.filter_append]
    rw [finalTextEvents_filter_toolCall, finalTextEvents_filter_done]
    exact ⟨rfl, rfl⟩
  · intro send sst msgs
    unfold streamGemini
    dsimp only
    rw [List.filter_append, List.filter_append]
    rw [map_text_filter_toolCall, map_text_filter_done]
    exact ⟨rfl, rfl⟩
  · intro P S E msgs h
    unfold streamAnthropic
    dsimp only
    rw [List.filter_append, List.filter_append, List.filter_append, List.filter_append]
    rw [finalTextEvents_filter_toolCall, finalTextEvents_filter_done]
    have hc := anthropicRounds_counts P E h 5 (initAMsgs msgs)
    constructor
    · rw [List.length_append, List.length_append, hc.1]
      rfl
    · rw [List.length_append, List.length_append, hc.2]
      rfl
  · intro send sst E msgs h
    unfold streamGemini
    dsimp only
    rw [List.filter_append, List.filter_append]
    have hc := geminiRounds_counts send E h 5 [GSendable.text (lastContent msgs)]
    constructor
    · rw [List.length_append, hc.1]
      rfl
    · rw [List.length_append, hc.2]
      rfl

/-- C6, witness: the no-executor turn emits no tool event and one terminal
event, and the always-tool turns emit exactly five tool events and one
terminal event, for both providers. -/
theorem orchestrator_tool_bounds_witness :
    (streamAnthropic aAlwaysTool aStreamHello none msgs0).filter isToolCall = [] ∧
    ((streamGemini gAlwaysTool gStreamHello none msgs0).filter isDone).length = 1 ∧
    ((streamAnthropic aAlwaysTool aStreamHello (some execStub) msgs0).filter
      isToolCall).length = 5 ∧
    ((streamGemini gAlwaysTool gStreamHello (some execStub) msgs0).filter
      isToolCall).length = 5 ∧
    ((streamGemini gAlwaysTool gStreamHello (some execStub) msgs0).filter
      isDone).length = 1 := by
  have h := orchestrator_tool_bounds
  have h3 := h.2.2.1 aAlwaysTool aStreamHello execStub msgs0 (fun ms => ⟨rfl, rfl⟩)
  have h4 := h.2.2.2 gAlwaysTool gStreamHello execStub msgs0 (fun _ => rfl)
  exact ⟨(h.1 aAlwaysTool aStreamHello msgs0).1,
    (h.2.1 gAlwaysTool gStreamHello msgs0).2, h3.1, h4.1, h4.2⟩

end Stonks
